import Mathlib

/-!
# Polynomial evaluation benchmark: Horner versus the power-sum evaluator

A shallow embedding of `main.cpp`.

Conventions of the embedding

* `double` and `long double` values are exact rationals (`ℚ`): every statement
  below is a statement of exact arithmetic, rounding is not modelled.
* `int` values are mathematical integers (`Int`).  The loop counters of the
  evaluators stay between `-1` and `degree + 1`, and an array of `degree + 1`
  elements has an `int` length in this program (`arrayLength`), so no counter
  leaves the `int` range.  The one sum that can leave it, `degree + 1` in
  `main`, is taken modulo `2^32` (`wrapInt`).
* `double factors[]` is a `List ℚ`; reading an index outside the array is
  undefined behaviour in the source and the error result `none` here.
-/

namespace AlgoTime

/-! ## The evaluators -/

/-- Array read `factors[i]` with an `int` index: `none` outside `0 .. length - 1`. -/
def readAt (factors : List ℚ) (i : Int) : Option ℚ :=
  if 0 ≤ i then factors[i.toNat]? else none

/-- The `for (int i = ...; i <= degree; i++)` loop of `horner`, entered with
counter `i` and accumulator `value`. -/
def hornerLoop (factors : List ℚ) (position : ℚ) (degree : Int) (i : Int) (value : ℚ) :
    Option ℚ :=
  if i ≤ degree then
    match readAt factors i with
    | none => none
    | some f => hornerLoop factors position degree (i + 1) (f + (value * position))
  else
    some value
termination_by (degree + 1 - i).toNat
decreasing_by omega

/-- Polynomial evaluation via Horner's algorithm (`horner`, lines 19-27). -/
def horner (factors : List ℚ) (position : ℚ) (degree : Int) : Option ℚ :=
  match readAt factors 0 with
  | none => none
  | some value => hornerLoop factors position degree 1 value

/-- The `while (n > 1)` loop of `power`: `value = value * x; n--`. -/
def powerLoop (x : ℚ) (value : ℚ) (n : ℚ) : ℚ :=
  if n > 1 then powerLoop x (value * x) (n - 1) else value
termination_by ⌈n⌉.toNat
decreasing_by
  rename_i h
  have h1 : (1 : Int) < ⌈n⌉ := Int.lt_ceil.mpr (by exact_mod_cast h)
  have h2 : ⌈n - 1⌉ = ⌈n⌉ - 1 := Int.ceil_sub_one n
  omega

/-- The helper `power` (lines 29-37); the exponent is a `double` in the source. -/
def power (x : ℚ) (n : ℚ) : ℚ :=
  if n = 0 then 1 else powerLoop x x n

/-- The `for (int i = degree - 1; i >= 0; i--)` loop of `simply`, entered with
counter `i`, exponent `exp` and accumulator `value`. -/
def simplyLoop (factors : List ℚ) (position : ℚ) (i : Int) (exp : ℚ) (value : ℚ) :
    Option ℚ :=
  if i ≥ 0 then
    match readAt factors i with
    | none => none
    | some f =>
      simplyLoop factors position (i - 1) (exp + 1) ((f * power position (exp + 1)) + value)
  else
    some value
termination_by (i + 1).toNat
decreasing_by omega

/-- Polynomial evaluation via the classical approach (`simply`, lines 40-50). -/
def simply (factors : List ℚ) (position : ℚ) (degree : Int) : Option ℚ :=
  match readAt factors degree with
  | none => none
  | some value => simplyLoop factors position (degree - 1) 0 value


/-! ## Reference values (from the specification) -/

/-- The recurrence of the Horner contract: `v₀ = c₀`, `vᵢ = cᵢ + vᵢ₋₁ · x`. -/
def hornerRec (c : List ℚ) (x : ℚ) : Nat → ℚ
  | 0 => c.getD 0 0
  | i + 1 => c.getD (i + 1) 0 + hornerRec c x i * x

/-- The polynomial value `Σ cᵢ · x^(d - i)` for `i = 0 .. d`, coefficients highest-order first. -/
def polyValue (c : List ℚ) (x : ℚ) (d : Nat) : ℚ :=
  ∑ i in Finset.range (d + 1), c.getD i 0 * x ^ (d - i)

/-- The same sum with every power taken from the helper `power`. -/
def powerSum (c : List ℚ) (x : ℚ) (d : Nat) : ℚ :=
  ∑ i in Finset.range (d + 1), c.getD i 0 * power x ((d - i : Nat) : ℚ)


/-! ## The random input generator -/

/-- The process-wide pseudo-random source behind `rand()`: the sequence of raw
outputs fixed by the seed, and the number of draws made so far. -/
structure RandState where
  raw : Nat → Int
  calls : Nat

/-- One call of the library function `rand()`: the next raw output. -/
def rand (s : RandState) : Int × RandState :=
  (s.raw s.calls, { s with calls := s.calls + 1 })

/-- The draw `getRandomDouble` (lines 52-54); `RAND_MAX` is the library constant. -/
def getRandomDouble (RAND_MAX : Int) (s : RandState) : ℚ × RandState :=
  let (r, s') := rand s
  (((r : ℚ) / (RAND_MAX : ℚ)) * (1.0 - 0.1) + 0.1, s')

/-! ## The timing harness -/

/-- Observable steps of a trial, in program order: a clock reading, a call of
an evaluator with what it returned (`none` where its behaviour is undefined), a
line on the console, a call of `printResult` with its arguments. -/
inductive Event where
  | clockNow (t : Int)
  | callHorner (factors : List ℚ) (position : ℚ) (degree : Int) (returned : Option ℚ)
  | callSimply (factors : List ℚ) (position : ℚ) (degree : Int) (returned : Option ℚ)
  | console (line : String)
  | printResult (degree : Int) (position : ℚ) (result : Option ℚ)
      (timeHorner : ℚ) (timeSimply : ℚ)
  deriving DecidableEq

/-- The harness `executeWithTimeMeasuring` (lines 96-120).  `clock n` is the
reading, in nanoseconds, of the `n`-th call of `high_resolution_clock::now()`
and `tick` the number of readings taken before the trial.  Returns the events
of the trial and the number of readings taken after it.  The value handed on
as `result` is what `horner` returned; the body of `printResult` is not
unfolded here. -/
def executeWithTimeMeasuring (clock : Nat → Int) (tick : Nat)
    (factors : List ℚ) (position : ℚ) (degree : Int) : List Event × Nat :=
  let startHorner := clock tick
  let hornerValue := horner factors position degree
  let endHorner := clock (tick + 1)
  let timeTakenByHorner : ℚ := ((endHorner - startHorner : Int) : ℚ)
  let pre : List Event :=
    [Event.clockNow startHorner, Event.callHorner factors position degree hornerValue,
      Event.clockNow endHorner, Event.console "Horner\x27s algorithm finished"]
  if degree ≤ 100000 then
    let startSimply := clock (tick + 2)
    let simplyValue := simply factors position degree
    let endSimply := clock (tick + 3)
    let timeTakenBySimply : ℚ := ((endSimply - startSimply : Int) : ℚ)
    (pre ++
      [Event.clockNow startSimply, Event.callSimply factors position degree simplyValue,
        Event.clockNow endSimply, Event.console "Polynomial evaluation finished",
        Event.printResult degree position hornerValue timeTakenByHorner timeTakenBySimply],
      tick + 4)
  else
    (pre ++ [Event.printResult degree position hornerValue timeTakenByHorner 0.0], tick + 2)

/-- Number of invocations of `simply` among the events. -/
def simplyCalls (events : List Event) : Nat :=
  events.countP fun e =>
    match e with
    | Event.callSimply _ _ _ _ => true
    | _ => false

/-- The naive durations handed to `printResult`, one per call, in order. -/
def reportedTimeSimply (events : List Event) : List ℚ :=
  events.filterMap fun e =>
    match e with
    | Event.printResult _ _ _ _ t => some t
    | _ => none

/-! ## The report sink: time units -/

/-- `getReadableTime` (lines 186-202).  `to_string` is the library rendering
`std::to_string` of a `double`. -/
def getReadableTime (to_string : ℚ → String) (timeNs : ℚ) : String :=
  let outputTime := to_string timeNs ++ " ns."
  let outputTime :=
    if (timeNs / 100000) > 1.0 then to_string (timeNs / 100000) ++ " ms." else outputTime
  let outputTime :=
    if ((timeNs / 100000) / 1000) > 1.0 then
      to_string ((timeNs / 100000) / 1000) ++ " sec."
    else outputTime
  let outputTime :=
    if (((timeNs / 100000) / 1000) / 60) > 1.0 then
      to_string (((timeNs / 100000) / 1000) / 60) ++ " min."
    else outputTime
  outputTime

/-- The units of the report, in ascending order. -/
inductive TimeUnit where
  | ns
  | ms
  | sec
  | min
  deriving DecidableEq

/-- The value of a duration scaled to a unit, as `getReadableTime` scales it. -/
def TimeUnit.scaled : TimeUnit → ℚ → ℚ
  | TimeUnit.ns, timeNs => timeNs
  | TimeUnit.ms, timeNs => timeNs / 100000
  | TimeUnit.sec, timeNs => (timeNs / 100000) / 1000
  | TimeUnit.min, timeNs => ((timeNs / 100000) / 1000) / 60

/-- The suffix printed for a unit. -/
def TimeUnit.suffix : TimeUnit → String
  | TimeUnit.ns => " ns."
  | TimeUnit.ms => " ms."
  | TimeUnit.sec => " sec."
  | TimeUnit.min => " min."

/-- The rule of the report sink in the words of the specification: the largest
unit whose scaled value exceeds 1, nanoseconds when none does. -/
def largestUnit (timeNs : ℚ) : TimeUnit :=
  if TimeUnit.min.scaled timeNs > 1 then TimeUnit.min
  else if TimeUnit.sec.scaled timeNs > 1 then TimeUnit.sec
  else if TimeUnit.ms.scaled timeNs > 1 then TimeUnit.ms
  else TimeUnit.ns

/-! ## Instrumented evaluators

The same code with counters: every `*` on values adds one to `mults`, every
`+` on values adds one to `adds`, every array read appends its index to
`reads`.  Updates of the counters `i`, `exp` and `n` are not counted. -/

/-- Operation counts and the array indices read, in program order. -/
structure Meter where
  mults : Nat
  adds : Nat
  reads : List Int
  deriving DecidableEq

/-- The loop of `power` with the number of multiplications made so far. -/
def powerLoopI (x : ℚ) (value : ℚ) (n : ℚ) (mults : Nat) : ℚ × Nat :=
  if n > 1 then powerLoopI x (value * x) (n - 1) (mults + 1) else (value, mults)
termination_by ⌈n⌉.toNat
decreasing_by
  rename_i h
  have h1 : (1 : Int) < ⌈n⌉ := Int.lt_ceil.mpr (by exact_mod_cast h)
  have h2 : ⌈n - 1⌉ = ⌈n⌉ - 1 := Int.ceil_sub_one n
  omega

/-- The helper `power` with the number of multiplications it performs. -/
def powerI (x : ℚ) (n : ℚ) : ℚ × Nat :=
  if n = 0 then (1, 0) else powerLoopI x x n 0

/-- The loop of `horner` with its meter. -/
def hornerLoopI (factors : List ℚ) (position : ℚ) (degree : Int) (i : Int) (value : ℚ)
    (m : Meter) : Option (ℚ × Meter) :=
  if i ≤ degree then
    match readAt factors i with
    | none => none
    | some f =>
      hornerLoopI factors position degree (i + 1) (f + (value * position))
        ⟨m.mults + 1, m.adds + 1, m.reads ++ [i]⟩
  else
    some (value, m)
termination_by (degree + 1 - i).toNat
decreasing_by omega

/-- The evaluator `horner` with its meter. -/
def hornerI (factors : List ℚ) (position : ℚ) (degree : Int) : Option (ℚ × Meter) :=
  match readAt factors 0 with
  | none => none
  | some value => hornerLoopI factors position degree 1 value ⟨0, 0, [0]⟩

/-- The loop of `simply` with its meter; the multiplications made inside
`power` are added to the one of the coefficient product. -/
def simplyLoopI (factors : List ℚ) (position : ℚ) (i : Int) (exp : ℚ) (value : ℚ)
    (m : Meter) : Option (ℚ × Meter) :=
  if i ≥ 0 then
    match readAt factors i with
    | none => none
    | some f =>
      simplyLoopI factors position (i - 1) (exp + 1)
        ((f * (powerI position (exp + 1)).1) + value)
        ⟨m.mults + (powerI position (exp + 1)).2 + 1, m.adds + 1, m.reads ++ [i]⟩
  else
    some (value, m)
termination_by (i + 1).toNat
decreasing_by omega

/-- The evaluator `simply` with its meter. -/
def simplyI (factors : List ℚ) (position : ℚ) (degree : Int) : Option (ℚ × Meter) :=
  match readAt factors degree with
  | none => none
  | some value => simplyLoopI factors position (degree - 1) 0 value ⟨0, 0, [degree]⟩

/-! ## The report sink: reading a rendered duration -/

/-- The string `s` ends with the string `ending`. -/
def hasSuffix (s : String) (ending : String) : Prop :=
  ending.data <:+ s.data

/-- Nanoseconds in one unit of the report (1 ms = 10^6 ns, 1 s = 10^9 ns,
1 min = 60 s), by which the specification converts a duration. -/
def TimeUnit.nanos : TimeUnit → ℚ
  | TimeUnit.ns => 1
  | TimeUnit.ms => 10 ^ 6
  | TimeUnit.sec => 10 ^ 9
  | TimeUnit.min => 60 * 10 ^ 9

/-- The calls of `printResult` among the events, in order. -/
def printResultCalls (events : List Event) : List Event :=
  events.filter fun e =>
    match e with
    | Event.printResult _ _ _ _ _ => true
    | _ => false

/-! ## Filling the coefficient array -/

/-- Array write `array[i] = v` with an `int` index: `none` outside
`0 .. length - 1`. -/
def writeAt (array : List ℚ) (i : Int) (v : ℚ) : Option (List ℚ) :=
  if 0 ≤ i ∧ i.toNat < array.length then some (array.set i.toNat v) else none

/-- The loop of `fulfillWithRandoms`, entered with counter `i`; `writes` lists
the indices assigned so far, in order. -/
def fulfillLoop (RAND_MAX : Int) (length : Int) (i : Int) (array : List ℚ) (s : RandState)
    (writes : List Int) : Option (List ℚ × RandState × List Int) :=
  if i < length then
    match writeAt array i (getRandomDouble RAND_MAX s).1 with
    | none => none
    | some array' =>
      fulfillLoop RAND_MAX length (i + 1) array' (getRandomDouble RAND_MAX s).2 (writes ++ [i])
  else
    some (array, s, writes)
termination_by (length - i).toNat
decreasing_by omega

/-- The filler `fulfillWithRandoms` (lines 56-60): the array after the call,
the generator after the call, and the indices assigned, in order. -/
def fulfillWithRandoms (RAND_MAX : Int) (array : List ℚ) (length : Int) (s : RandState) :
    Option (List ℚ × RandState × List Int) :=
  fulfillLoop RAND_MAX length 0 array s []

/-! ## The self-test -/

/-- The comparison `fabs(r - target) < tolerance` on the result of an evaluator. -/
def within (r : Option ℚ) (target : ℚ) (tolerance : ℚ) : Bool :=
  match r with
  | none => false
  | some v => decide (|v - target| < tolerance)

/-- The self-test `test` (lines 73-94): `none` when an assertion fails, and
otherwise the generator after the two draws. -/
def test (RAND_MAX : Int) (s : RandState) : Option RandState :=
  let poly : List ℚ := [2.0, 1.0, 1.0]
  if horner poly 1.0 2 ≠ some 4.0 then none
  else if simply poly 1.0 2 ≠ some 4.0 then none
  else if within (horner poly 0.1 2) 1.12 (1.12 * 0.000001) = false then none
  else if within (simply poly 0.1 2) 1.12 (1.12 * 0.000001) = false then none
  else
    let poly2 : List ℚ := [3.0, 2.0, -1.0, 1.0]
    if horner poly2 0.5 3 ≠ some 1.375 then none
    else if simply poly2 0.5 3 ≠ some 1.375 then none
    else
      let rand1 := getRandomDouble RAND_MAX s
      let rand2 := getRandomDouble RAND_MAX rand1.2
      if rand1.1 ≠ rand2.1 then some rand2.2 else none

/-! ## The sweep driver -/

/-- What the sweep works on: the `int` values still to be read from the
console, the generator, and the number of clock readings taken. -/
structure World where
  input : List Int
  rng : RandState
  tick : Nat

/-- Observable steps of the sweep, in program order: a line on the console, a
degree read from the operator, a trial with the arguments handed to the
harness and the events of the harness. -/
inductive SweepEvent where
  | console (line : String)
  | readDegree (degree : Int)
  | trial (factors : List ℚ) (position : ℚ) (degree : Int) (run : List Event)

/-- The read `cin >> degree` into `int degree = 0`: the next value, and 0 when
the input has run out. -/
def cinRead (input : List Int) : Int × List Int :=
  match input with
  | [] => (0, [])
  | d :: rest => (d, rest)

/-- The value of an `int` expression whose exact result is `z`: `z` reduced
modulo `2^32` into the range from `-2147483648` to `2147483647`. -/
def wrapInt (z : Int) : Int :=
  (z + 2147483648) % 4294967296 - 2147483648

/-- One trial, the body of the inner loop of `main` (lines 149-158).  The
length `int arrayLength = degree + 1` is `INT_MIN` at `degree = INT_MAX`; a
negative `arrayLength` makes `new` throw, the result `none` here.  `newOk w n`
tells whether the environment has storage for `new double[n]` when the sweep
is in state `w`; without it `new` throws as well.  The fresh array has
indeterminate contents in the source and zeros here. -/
def runTrial (RAND_MAX : Int) (clock : Nat → Int) (newOk : World → Nat → Bool) (degree : Int)
    (w : World) : Option (World × SweepEvent) :=
  let arrayLength := wrapInt (degree + 1)
  if arrayLength < 0 then none
  else if newOk w arrayLength.toNat = false then none
  else
    match fulfillWithRandoms RAND_MAX (List.replicate arrayLength.toNat 0) arrayLength w.rng with
    | none => none
    | some (factors, rng1, _) =>
      let generated := getRandomDouble RAND_MAX rng1
      let run := executeWithTimeMeasuring clock w.tick factors generated.1 degree
      some (World.mk w.input generated.2 run.2, SweepEvent.trial factors generated.1 degree run.1)

/-- The inner loop `while (currentCycle <= 10)` of `main`. -/
def trialLoop (RAND_MAX : Int) (clock : Nat → Int) (newOk : World → Nat → Bool) (degree : Int)
    (currentCycle : Int) (w : World) (events : List SweepEvent) :
    Option (World × List SweepEvent) :=
  if currentCycle ≤ 10 then
    match runTrial RAND_MAX clock newOk degree w with
    | none => none
    | some (w', e) =>
      trialLoop RAND_MAX clock newOk degree (currentCycle + 1) w' (events ++ [e])
  else
    some (w, events)
termination_by (11 - currentCycle).toNat
decreasing_by omega

/-- The outer loop `while (currentStep <= 4)` of `main` (lines 138-164). -/
def sweepLoop (RAND_MAX : Int) (clock : Nat → Int) (newOk : World → Nat → Bool)
    (currentStep : Int) (w : World) (events : List SweepEvent) :
    Option (World × List SweepEvent) :=
  if currentStep ≤ 4 then
    match trialLoop RAND_MAX clock newOk (cinRead w.input).1 1
        (World.mk (cinRead w.input).2 w.rng w.tick)
        (events ++ [SweepEvent.console "Enter polynomial\x27s degree: ",
          SweepEvent.readDegree (cinRead w.input).1]) with
    | none => none
    | some (w', events') => sweepLoop RAND_MAX clock newOk (currentStep + 1) w' events'
  else
    some (w, events)
termination_by (5 - currentStep).toNat
decreasing_by omega

/-- The program `main` (lines 122-165): the self-test, then the sweep.  `s` is
the generator as seeded by `srand`; emptying the output file is not modelled. -/
def main (RAND_MAX : Int) (clock : Nat → Int) (newOk : World → Nat → Bool) (input : List Int)
    (s : RandState) : Option (World × List SweepEvent) :=
  match test RAND_MAX s with
  | none => none
  | some s' => sweepLoop RAND_MAX clock newOk 1 (World.mk input s' 0) []

/-- A step of the sweep state machine: a degree requested from the operator,
or a trial run with a degree. -/
inductive Step where
  | request (degree : Int)
  | trial (degree : Int)
  deriving DecidableEq

/-- The steps of the state machine among the events of a sweep. -/
def steps (events : List SweepEvent) : List Step :=
  events.filterMap fun e =>
    match e with
    | SweepEvent.console _ => none
    | SweepEvent.readDegree d => some (Step.request d)
    | SweepEvent.trial _ _ d _ => some (Step.trial d)

/-- The transition rule of the sweep in the words of the specification: for
each degree in turn, one request followed by ten trials with that degree. -/
def sweepPlan : List Int → List Step
  | [] => []
  | d :: rest => (Step.request d :: List.replicate 10 (Step.trial d)) ++ sweepPlan rest

/-- Number of trials among the steps. -/
def trialCount (plan : List Step) : Nat :=
  plan.countP fun st =>
    match st with
    | Step.trial _ => true
    | Step.request _ => false

/-- Number of degree requests among the steps. -/
def requestCount (plan : List Step) : Nat :=
  plan.countP fun st =>
    match st with
    | Step.trial _ => false
    | Step.request _ => true

/-- The events of one request: the prompt, then the degree read. -/
def requestOf (d : Int) : List SweepEvent :=
  [SweepEvent.console "Enter polynomial\x27s degree: ", SweepEvent.readDegree d]

/-- The event is a trial with degree `d`: a call of the harness, at some state
of the clock, with that degree and a coefficient sequence of `d + 1` entries. -/
def isTrialOf (clock : Nat → Int) (d : Int) (e : SweepEvent) : Prop :=
  ∃ (tick : Nat) (factors : List ℚ) (position : ℚ),
    (factors.length : Int) = d + 1 ∧
      e = SweepEvent.trial factors position d
        (executeWithTimeMeasuring clock tick factors position d).1

/-- The events are those of a complete sweep over the degrees, in the words of
the specification: for each degree in turn, the request of that degree
followed by exactly ten trials with it, and nothing after the last trial. -/
def isSweepOf (clock : Nat → Int) : List Int → List SweepEvent → Prop
  | [], events => events = []
  | d :: ds, events =>
    ∃ trials rest, events = requestOf d ++ trials ++ rest ∧ trials.length = 10 ∧
      (∀ e ∈ trials, isTrialOf clock d e) ∧ isSweepOf clock ds rest

/-! ## Lemmas on the loops -/

theorem readAt_natCast (c : List ℚ) (k : Nat) (h : k < c.length) :
    readAt c (k : Int) = some (c.getD k 0) := by
  simp [readAt, List.getD, List.getElem?_eq_getElem h]

theorem hornerLoop_exit (c : List ℚ) (x : ℚ) (degree i : Int) (value : ℚ) (h : degree < i) :
    hornerLoop c x degree i value = some value := by
  rw [hornerLoop, if_neg (by omega)]

theorem hornerLoop_step (c : List ℚ) (x : ℚ) (degree : Int) (k : Nat) (value : ℚ)
    (hk : k < c.length) (h : (k : Int) ≤ degree) :
    hornerLoop c x degree k value
      = hornerLoop c x degree ((k + 1 : Nat) : Int) (c.getD k 0 + value * x) := by
  rw [hornerLoop, if_pos h, readAt_natCast c k hk]
  simp

theorem hornerLoop_rec (c : List ℚ) (x : ℚ) (d : Nat) (hlen : c.length = d + 1) :
    ∀ m j : Nat, j + m = d →
      hornerLoop c x d ((j + 1 : Nat) : Int) (hornerRec c x j) = some (hornerRec c x d) := by
  intro m
  induction m with
  | zero =>
    intro j hj
    have : j = d := by omega
    subst this
    exact hornerLoop_exit c x _ _ _ (by push_cast; omega)
  | succ m ih =>
    intro j hj
    rw [hornerLoop_step c x d (j + 1) _ (by omega) (by exact_mod_cast (by omega : j + 1 ≤ d))]
    exact ih (j + 1) (by omega)

theorem horner_eq_rec (c : List ℚ) (x : ℚ) (d : Nat) (hlen : c.length = d + 1) :
    horner c x d = some (hornerRec c x d) := by
  have h0 : readAt c 0 = some (c.getD 0 0) := by
    simpa using readAt_natCast c 0 (by omega)
  rw [horner, h0]
  simpa [hornerRec] using hornerLoop_rec c x d hlen d 0 (by omega)

theorem hornerRec_eq_polyValue (c : List ℚ) (x : ℚ) (d : Nat) :
    hornerRec c x d = polyValue c x d := by
  induction d with
  | zero => simp [hornerRec, polyValue]
  | succ n ih =>
    rw [hornerRec, ih, polyValue, polyValue, Finset.sum_range_succ _ (n + 1), Finset.sum_mul]
    have : ∀ i ∈ Finset.range (n + 1), c.getD i 0 * x ^ (n - i) * x
        = c.getD i 0 * x ^ (n + 1 - i) := by
      intro i hi
      have hi2 : i ≤ n := by simpa [Nat.lt_succ_iff] using hi
      rw [Nat.succ_sub hi2, pow_succ, mul_assoc]
    rw [Finset.sum_congr rfl this]
    simp [add_comm]

theorem powerLoop_natCast (x : ℚ) : ∀ (k : Nat) (value : ℚ),
    powerLoop x value ((k + 1 : Nat) : ℚ) = value * x ^ k := by
  intro k
  induction k with
  | zero =>
    intro value
    rw [powerLoop, if_neg (by norm_num)]
    simp
  | succ k ih =>
    intro value
    have h1 : ((k + 1 + 1 : Nat) : ℚ) > 1 := by
      have : (0 : ℚ) ≤ (k : ℚ) := Nat.cast_nonneg k
      push_cast
      linarith
    rw [powerLoop, if_pos h1]
    have h2 : ((k + 1 + 1 : Nat) : ℚ) - 1 = ((k + 1 : Nat) : ℚ) := by
      push_cast
      ring
    rw [h2, ih, pow_succ]
    ring

theorem power_natCast (x : ℚ) (n : Nat) : power x (n : ℚ) = x ^ n := by
  cases n with
  | zero => simp [power]
  | succ k =>
    have h : ((k + 1 : Nat) : ℚ) ≠ 0 := by exact_mod_cast Nat.succ_ne_zero k
    rw [power, if_neg h, powerLoop_natCast, pow_succ, mul_comm]

theorem powerSum_eq_polyValue (c : List ℚ) (x : ℚ) (d : Nat) :
    powerSum c x d = polyValue c x d := by
  simp [powerSum, polyValue, power_natCast]

theorem simplyLoop_exit (c : List ℚ) (x : ℚ) (i : Int) (exp value : ℚ) (h : i < 0) :
    simplyLoop c x i exp value = some value := by
  rw [simplyLoop, if_neg (by omega)]

theorem simplyLoop_sum (c : List ℚ) (x : ℚ) (d : Nat) (hlen : c.length = d + 1) :
    ∀ (m : Nat) (value : ℚ), m ≤ d →
      simplyLoop c x ((m : Int) - 1) ((d - m : Nat) : ℚ) value
        = some (value + ∑ i in Finset.range m, c.getD i 0 * power x ((d - i : Nat) : ℚ)) := by
  intro m
  induction m with
  | zero =>
    intro value _
    rw [simplyLoop_exit c x _ _ _ (by norm_num)]
    simp
  | succ m ih =>
    intro value hm
    have hi : ((m + 1 : Nat) : Int) - 1 = (m : Int) := by push_cast; ring
    have hexp : ((d - (m + 1) : Nat) : ℚ) + 1 = ((d - m : Nat) : ℚ) := by
      have : d - m = (d - (m + 1)) + 1 := by omega
      rw [this]
      push_cast
      ring
    rw [hi, simplyLoop, if_pos (by omega), readAt_natCast c m (by omega)]
    simp only [hexp]
    rw [ih _ (by omega), Finset.sum_range_succ]
    congr 1
    ring

theorem simply_eq_powerSum (c : List ℚ) (x : ℚ) (d : Nat) (hlen : c.length = d + 1) :
    simply c x d = some (powerSum c x d) := by
  rw [simply, readAt_natCast c d (by omega)]
  have h := simplyLoop_sum c x d hlen d (c.getD d 0) (le_refl d)
  simp only [Nat.sub_self, Nat.cast_zero] at h
  simp only [h, powerSum, Finset.sum_range_succ, Nat.sub_self, Nat.cast_zero, power]
  simp [add_comm]


/-! ## The evaluators: contracts -/

/-- C1: for a coefficient list of length `d + 1` (highest order first),
`horner` returns `v_d` of the recurrence `v₀ = c₀`, `vᵢ = cᵢ + vᵢ₋₁ · x`, and
this value is the polynomial value `Σ cᵢ · x^(d - i)`. -/
theorem horner_contract (c : List ℚ) (x : ℚ) (d : Nat) (hlen : c.length = d + 1) :
    horner c x d = some (hornerRec c x d) ∧ horner c x d = some (polyValue c x d) := by
  have h := horner_eq_rec c x d hlen
  exact ⟨h, by rw [h, hornerRec_eq_polyValue]⟩

theorem horner_contract_witness :
    ([2, 1, 1] : List ℚ).length = 2 + 1 ∧
      horner [2, 1, 1] (1 / 10) (2 : Nat) = some (hornerRec [2, 1, 1] (1 / 10) 2) ∧
      horner [2, 1, 1] (1 / 10) (2 : Nat) = some (polyValue [2, 1, 1] (1 / 10) 2) :=
  ⟨rfl, horner_contract [2, 1, 1] (1 / 10) 2 rfl⟩

/-- C2: for a coefficient list of length `d + 1`, `simply` returns the sum of
`cᵢ · power(x, d - i)` over `i = 0 .. d`, every such power is `x^(d - i)`, and
so the result is `Σ cᵢ · x^(d - i)`. -/
theorem simply_contract (c : List ℚ) (x : ℚ) (d : Nat) (hlen : c.length = d + 1) :
    simply c x d = some (powerSum c x d) ∧
      (∀ i, i ≤ d → power x ((d - i : Nat) : ℚ) = x ^ (d - i)) ∧
      simply c x d = some (polyValue c x d) := by
  have h := simply_eq_powerSum c x d hlen
  exact ⟨h, fun i _ => power_natCast x (d - i), by rw [h, powerSum_eq_polyValue]⟩

theorem simply_contract_witness :
    ([3, 2, -1, 1] : List ℚ).length = 3 + 1 ∧
      simply [3, 2, -1, 1] (1 / 2) (3 : Nat) = some (powerSum [3, 2, -1, 1] (1 / 2) 3) ∧
      (∀ i, i ≤ 3 → power (1 / 2) ((3 - i : Nat) : ℚ) = (1 / 2) ^ (3 - i)) ∧
      simply [3, 2, -1, 1] (1 / 2) (3 : Nat) = some (polyValue [3, 2, -1, 1] (1 / 2) 3) :=
  ⟨rfl, simply_contract [3, 2, -1, 1] (1 / 2) 3 rfl⟩

/-- C3: for a coefficient list of length `d + 1`, `horner` and `simply` both
return a value, and it is the same value. -/
theorem horner_eq_simply (c : List ℚ) (x : ℚ) (d : Nat) (hlen : c.length = d + 1) :
    ∃ v, horner c x d = some v ∧ simply c x d = some v := by
  refine ⟨polyValue c x d, ?_, ?_⟩
  · rw [horner_eq_rec c x d hlen, hornerRec_eq_polyValue]
  · rw [simply_eq_powerSum c x d hlen, powerSum_eq_polyValue]

theorem horner_eq_simply_witness :
    ([5, 0, 7] : List ℚ).length = 2 + 1 ∧
      ∃ v, horner [5, 0, 7] 3 (2 : Nat) = some v ∧ simply [5, 0, 7] 3 (2 : Nat) = some v :=
  ⟨rfl, horner_eq_simply [5, 0, 7] 3 2 rfl⟩

/-- C4: for `2x² + x + 1`, coefficients `[2, 1, 1]` and degree 2, both
evaluators return exactly 4 at `x = 1`, and at `x = 1/10` both return a value
within `1.12 * 0.000001` of `1.12`. -/
theorem selftest_poly_two :
    horner [2.0, 1.0, 1.0] 1.0 2 = some 4.0 ∧
      simply [2.0, 1.0, 1.0] 1.0 2 = some 4.0 ∧
      (∃ v, horner [2.0, 1.0, 1.0] 0.1 2 = some v ∧ |v - 1.12| < 1.12 * 0.000001) ∧
      (∃ v, simply [2.0, 1.0, 1.0] 0.1 2 = some v ∧ |v - 1.12| < 1.12 * 0.000001) := by
  refine ⟨?_, ?_, ⟨1.12, ?_, ?_⟩, ⟨1.12, ?_, ?_⟩⟩
  · simp [horner, hornerLoop, readAt]; norm_num
  · simp [simply, simplyLoop, readAt, power, powerLoop]; norm_num
  · simp [horner, hornerLoop, readAt]; norm_num
  · norm_num
  · simp [simply, simplyLoop, readAt, power, powerLoop]; norm_num
  · norm_num

/-- C5: for `3x³ + 2x² - x + 1`, coefficients `[3, 2, -1, 1]` and degree 3,
both evaluators return exactly `1.375` at `x = 0.5`. -/
theorem selftest_poly_three :
    horner [3.0, 2.0, -1.0, 1.0] 0.5 3 = some 1.375 ∧
      simply [3.0, 2.0, -1.0, 1.0] 0.5 3 = some 1.375 := by
  constructor
  · simp [horner, hornerLoop, readAt]; norm_num
  · simp [simply, simplyLoop, readAt, power, powerLoop]; norm_num

/-- C6: at degree 0 both evaluators return the sole coefficient, whatever the
point `x`. -/
theorem degree_zero_returns_coefficient (c x : ℚ) :
    horner [c] x 0 = some c ∧ simply [c] x 0 = some c := by
  constructor
  · simp [horner, hornerLoop, readAt]
  · simp [simply, simplyLoop, readAt]

/-- C7: `power(x, 0)` is 1 for every base `x`, the base 0 included. -/
theorem power_zero_exponent (x : ℚ) : power x 0 = 1 ∧ power 0 0 = 1 := by
  simp [power]

/-! ## The timing harness: the degree cutoff -/

/-- C8: for every clock, coefficient array, point and degree, the harness
invokes `simply` (once) if and only if `degree <= 100000`; and `degree > 100000`
holds exactly when `simply` is not invoked and the naive duration handed to
`printResult` is 0. -/
theorem simply_invoked_iff_degree_le (clock : Nat → Int) (tick : Nat) (factors : List ℚ)
    (position : ℚ) (degree : Int) :
    (simplyCalls (executeWithTimeMeasuring clock tick factors position degree).1 ≠ 0
        ↔ degree ≤ 100000) ∧
      (simplyCalls (executeWithTimeMeasuring clock tick factors position degree).1 = 1
        ↔ degree ≤ 100000) ∧
      ((simplyCalls (executeWithTimeMeasuring clock tick factors position degree).1 = 0 ∧
          reportedTimeSimply (executeWithTimeMeasuring clock tick factors position degree).1
            = [0])
        ↔ degree > 100000) := by
  by_cases h : degree ≤ 100000
  · have h2 : ¬ degree > 100000 := by omega
    simp [executeWithTimeMeasuring, simplyCalls, reportedTimeSimply, h, h2, List.countP_cons]
  · have h2 : degree > 100000 := by omega
    simp [executeWithTimeMeasuring, simplyCalls, reportedTimeSimply, h, h2, List.countP_cons]
    norm_num

/-! ## The report sink: unit selection -/

/-- C9: the thresholds are checked in ascending order and the last satisfied
one wins, so the result of `getReadableTime` is the duration scaled to the
largest unit whose scaled value exceeds 1 (nanoseconds when none does),
followed by the suffix of that unit; 50,000 ns is rendered with " ns." and
500,000 ns with " ms.". -/
theorem getReadableTime_largest_unit (to_string : ℚ → String) (timeNs : ℚ) :
    getReadableTime to_string timeNs
        = to_string ((largestUnit timeNs).scaled timeNs) ++ (largestUnit timeNs).suffix ∧
      getReadableTime to_string 50000 = to_string 50000 ++ " ns." ∧
      getReadableTime to_string 500000 = to_string 5 ++ " ms." := by
  refine ⟨?_, ?_, ?_⟩
  · simp only [getReadableTime, largestUnit, TimeUnit.scaled]
    norm_num
    split_ifs <;> simp [TimeUnit.scaled, TimeUnit.suffix]
  · simp only [getReadableTime]
    norm_num
  · simp only [getReadableTime]
    norm_num

/-! ## The random input generator: range of a draw -/

/-- C10 fails as stated: with `RAND_MAX = 2147483647` the raw output
`r = RAND_MAX` lies in `0 .. RAND_MAX`, and the draw computed from it is
exactly 1.0, which is not strictly below 1.0. -/
theorem getRandomDouble_not_below_one :
    (0 : Int) ≤ (RandState.mk (fun _ => 2147483647) 0).raw 0 ∧
      (RandState.mk (fun _ => 2147483647) 0).raw 0 ≤ (2147483647 : Int) ∧
      (getRandomDouble 2147483647 (RandState.mk (fun _ => 2147483647) 0)).1 = 1.0 ∧
      ¬ (getRandomDouble 2147483647 (RandState.mk (fun _ => 2147483647) 0)).1 < 1.0 := by
  refine ⟨by decide, by decide, ?_, ?_⟩
  · simp only [getRandomDouble, rand]
    norm_num
  · simp only [getRandomDouble, rand]
    norm_num

/-- C10 (amended): for every raw output `r` with `0 <= r <= RAND_MAX`, the
draw lies in the closed interval from 0.1 to 1.0, and it is strictly below 1.0
exactly when `r < RAND_MAX`. -/
theorem getRandomDouble_range (RAND_MAX : Int) (s : RandState) (hmax : 0 < RAND_MAX)
    (h0 : 0 ≤ s.raw s.calls) (h1 : s.raw s.calls ≤ RAND_MAX) :
    0.1 ≤ (getRandomDouble RAND_MAX s).1 ∧ (getRandomDouble RAND_MAX s).1 ≤ 1.0 ∧
      ((getRandomDouble RAND_MAX s).1 < 1.0 ↔ s.raw s.calls < RAND_MAX) := by
  simp only [getRandomDouble, rand]
  have hM : (0 : ℚ) < (RAND_MAX : ℚ) := by exact_mod_cast hmax
  have hr0 : (0 : ℚ) ≤ (s.raw s.calls : ℚ) := by exact_mod_cast h0
  have hr1 : (s.raw s.calls : ℚ) ≤ (RAND_MAX : ℚ) := by exact_mod_cast h1
  have hq0 : (0 : ℚ) ≤ (s.raw s.calls : ℚ) / (RAND_MAX : ℚ) := div_nonneg hr0 hM.le
  have hq1 : (s.raw s.calls : ℚ) / (RAND_MAX : ℚ) ≤ 1 := (div_le_one hM).mpr hr1
  have hlt : (s.raw s.calls : ℚ) / (RAND_MAX : ℚ) < 1 ↔ s.raw s.calls < RAND_MAX := by
    rw [div_lt_one hM]
    exact_mod_cast Iff.rfl
  refine ⟨?_, ?_, ?_⟩
  · norm_num
    nlinarith
  · norm_num
    nlinarith
  · rw [← hlt]
    norm_num
    constructor <;> intro h <;> nlinarith

theorem getRandomDouble_range_witness :
    (0 : Int) < 2147483647 ∧
      (0 : Int) ≤ (RandState.mk (fun _ => 1073741823) 0).raw 0 ∧
      (RandState.mk (fun _ => 1073741823) 0).raw 0 ≤ (2147483647 : Int) ∧
      (0.1 ≤ (getRandomDouble 2147483647 (RandState.mk (fun _ => 1073741823) 0)).1 ∧
        (getRandomDouble 2147483647 (RandState.mk (fun _ => 1073741823) 0)).1 ≤ 1.0 ∧
        ((getRandomDouble 2147483647 (RandState.mk (fun _ => 1073741823) 0)).1 < 1.0 ↔
          (RandState.mk (fun _ => 1073741823) 0).raw 0 < (2147483647 : Int))) :=
  ⟨by decide, by decide, by decide,
    getRandomDouble_range 2147483647 (RandState.mk (fun _ => 1073741823) 0)
      (by decide) (by decide) (by decide)⟩

/-! ## The helper `power` on arbitrary exponents -/

theorem natCeil_sub_one (n : ℚ) (hn : 1 < n) : ⌈n - 1⌉₊ = ⌈n⌉₊ - 1 := by
  have h := Nat.ceil_add_one (show (0 : ℚ) ≤ n - 1 by linarith)
  rw [sub_add_cancel] at h
  omega

theorem powerLoopI_eq (x : ℚ) : ∀ (k : Nat) (n value : ℚ) (mults : Nat), ⌈n⌉₊ ≤ k + 1 →
    powerLoopI x value n mults = (value * x ^ (⌈n⌉₊ - 1), mults + (⌈n⌉₊ - 1)) := by
  intro k
  induction k with
  | zero =>
    intro n value mults hk
    have hn : n ≤ 1 := by
      have := Nat.ceil_le.mp hk
      simpa using this
    rw [powerLoopI, if_neg (not_lt.mpr hn)]
    have : ⌈n⌉₊ - 1 = 0 := by omega
    simp [this]
  | succ k ih =>
    intro n value mults hk
    by_cases hn : n > 1
    · have h2 : 2 ≤ ⌈n⌉₊ := by
        have : 1 < ⌈n⌉₊ := Nat.lt_ceil.mpr (by exact_mod_cast hn)
        omega
      have hc : ⌈n - 1⌉₊ = ⌈n⌉₊ - 1 := natCeil_sub_one n hn
      rw [powerLoopI, if_pos hn, ih (n - 1) (value * x) (mults + 1) (by omega), hc]
      have h3 : ⌈n⌉₊ - 1 = (⌈n⌉₊ - 1 - 1) + 1 := by omega
      refine Prod.ext ?_ ?_
      · show value * x * x ^ (⌈n⌉₊ - 1 - 1) = value * x ^ (⌈n⌉₊ - 1)
        rw [h3, pow_succ]
        simp only [Nat.add_sub_cancel]
        ring
      · show mults + 1 + (⌈n⌉₊ - 1 - 1) = mults + (⌈n⌉₊ - 1)
        omega
    · rw [powerLoopI, if_neg hn]
      have : ⌈n⌉₊ ≤ 1 := Nat.ceil_le.mpr (by simpa using not_lt.mp hn)
      have : ⌈n⌉₊ - 1 = 0 := by omega
      simp [this]

theorem powerLoop_eq (x : ℚ) : ∀ (k : Nat) (n value : ℚ), ⌈n⌉₊ ≤ k + 1 →
    powerLoop x value n = value * x ^ (⌈n⌉₊ - 1) := by
  intro k
  induction k with
  | zero =>
    intro n value hk
    have hn : n ≤ 1 := by
      have := Nat.ceil_le.mp hk
      simpa using this
    rw [powerLoop, if_neg (not_lt.mpr hn)]
    have : ⌈n⌉₊ - 1 = 0 := by omega
    simp [this]
  | succ k ih =>
    intro n value hk
    by_cases hn : n > 1
    · have h2 : 2 ≤ ⌈n⌉₊ := by
        have : 1 < ⌈n⌉₊ := Nat.lt_ceil.mpr (by exact_mod_cast hn)
        omega
      have hc : ⌈n - 1⌉₊ = ⌈n⌉₊ - 1 := natCeil_sub_one n hn
      rw [powerLoop, if_pos hn, ih (n - 1) (value * x) (by omega), hc]
      have h3 : ⌈n⌉₊ - 1 = (⌈n⌉₊ - 1 - 1) + 1 := by omega
      rw [h3, pow_succ]
      simp only [Nat.add_sub_cancel]
      ring
    · rw [powerLoop, if_neg hn]
      have : ⌈n⌉₊ ≤ 1 := Nat.ceil_le.mpr (by simpa using not_lt.mp hn)
      have : ⌈n⌉₊ - 1 = 0 := by omega
      simp [this]

theorem power_of_pos (x n : ℚ) (hn : 0 < n) : power x n = x ^ ⌈n⌉₊ := by
  have h1 : 1 ≤ ⌈n⌉₊ := Nat.ceil_pos.mpr hn
  rw [power, if_neg hn.ne.symm, powerLoop_eq x ⌈n⌉₊ n x (by omega)]
  have h3 : ⌈n⌉₊ = (⌈n⌉₊ - 1) + 1 := by omega
  conv_rhs => rw [h3, pow_succ]
  ring

theorem power_of_le_one (x n : ℚ) (h0 : n ≠ 0) (h1 : n ≤ 1) : power x n = x := by
  rw [power, if_neg h0, powerLoop, if_neg (not_lt.mpr h1)]

theorem powerI_of_pos (x n : ℚ) (hn : 0 < n) : powerI x n = (x ^ ⌈n⌉₊, ⌈n⌉₊ - 1) := by
  have h1 : 1 ≤ ⌈n⌉₊ := Nat.ceil_pos.mpr hn
  rw [powerI, if_neg hn.ne.symm, powerLoopI_eq x ⌈n⌉₊ n x 0 (by omega)]
  have h3 : ⌈n⌉₊ = (⌈n⌉₊ - 1) + 1 := by omega
  refine Prod.ext ?_ ?_
  · show x * x ^ (⌈n⌉₊ - 1) = x ^ ⌈n⌉₊
    conv_rhs => rw [h3, pow_succ]
    ring
  · show 0 + (⌈n⌉₊ - 1) = ⌈n⌉₊ - 1
    omega

theorem powerI_natCast (x : ℚ) (k : Nat) : powerI x ((k + 1 : Nat) : ℚ) = (x ^ (k + 1), k) := by
  have hpos : (0 : ℚ) < ((k + 1 : Nat) : ℚ) := by exact_mod_cast Nat.succ_pos k
  rw [powerI_of_pos x _ hpos, Nat.ceil_natCast]
  simp

theorem two_rpow_inj (a b : ℝ) (h : (2 : ℝ) ^ a = (2 : ℝ) ^ b) : a = b := by
  have h2 : (1 : ℝ) < 2 := by norm_num
  exact le_antisymm ((Real.rpow_le_rpow_left_iff h2).mp h.le)
    ((Real.rpow_le_rpow_left_iff h2).mp h.ge)

/-- C14: for every base `x` and every positive integer exponent `n`, `power`
returns `x^n`; the loop ends after `n - 1` multiplications. -/
theorem power_pos_integer (x : ℚ) (n : Nat) (hn : 0 < n) :
    power x (n : ℚ) = x ^ n ∧ powerI x (n : ℚ) = (x ^ n, n - 1) := by
  obtain ⟨k, rfl⟩ : ∃ k, n = k + 1 := ⟨n - 1, by omega⟩
  exact ⟨power_natCast x (k + 1), by simpa using powerI_natCast x k⟩

theorem power_pos_integer_witness :
    0 < 5 ∧ power 3 ((5 : Nat) : ℚ) = 3 ^ 5 ∧ powerI 3 ((5 : Nat) : ℚ) = (3 ^ 5, 5 - 1) :=
  ⟨by decide, power_pos_integer 3 5 (by decide)⟩

/-- C20: for every exponent `n` with `n ≠ 0` and `n ≤ 1`, `power` performs no
multiplication and returns `x` itself; for every `n > 1`, integer or not, it
returns `x^⌈n⌉`; and `power(·, n)` agrees with real exponentiation at every
base exactly when `n` is a non-negative integer. -/
theorem power_off_integers (x n : ℚ) :
    (n ≠ 0 → n ≤ 1 → power x n = x ∧ powerI x n = (x, 0)) ∧
      (1 < n → power x n = x ^ ⌈n⌉₊) ∧
      ((∀ y : ℚ, ((power y n : ℚ) : ℝ) = (y : ℝ) ^ (n : ℝ)) ↔ ∃ k : Nat, n = k) := by
  refine ⟨?_, ?_, ?_, ?_⟩
  · intro h0 h1
    refine ⟨power_of_le_one x n h0 h1, ?_⟩
    rw [powerI, if_neg h0, powerLoopI, if_neg (not_lt.mpr h1)]
  · intro h1
    exact power_of_pos x n (by linarith)
  · intro h
    have h2 := h 2
    by_cases h0 : n = 0
    · exact ⟨0, by simpa using h0⟩
    · by_cases h1 : n ≤ 1
      · rw [power_of_le_one 2 n h0 h1] at h2
        have h3 : (2 : ℝ) ^ (1 : ℝ) = (2 : ℝ) ^ (n : ℝ) := by
          rw [Real.rpow_one]
          exact_mod_cast h2
        have h4 : ((1 : ℚ) : ℝ) = (n : ℝ) := by
          rw [← two_rpow_inj _ _ h3]
          norm_num
        exact ⟨1, by exact_mod_cast h4.symm⟩
      · rw [power_of_pos 2 n (by linarith)] at h2
        have h3 : (2 : ℝ) ^ ((⌈n⌉₊ : ℕ) : ℝ) = (2 : ℝ) ^ (n : ℝ) := by
          rw [Real.rpow_natCast]
          exact_mod_cast h2
        have h4 := two_rpow_inj _ _ h3
        exact ⟨⌈n⌉₊, by exact_mod_cast h4.symm⟩
  · rintro ⟨k, rfl⟩ y
    rw [power_natCast]
    push_cast
    rw [Real.rpow_natCast]

theorem power_off_integers_witness :
    (power 2 (-3) = 2 ∧ powerI 2 (-3) = (2, 0)) ∧
      (power 2 (1 / 2) = 2 ∧ powerI 2 (1 / 2) = (2, 0)) ∧
      power 2 (5 / 2) = 2 ^ ⌈(5 / 2 : ℚ)⌉₊ :=
  ⟨(power_off_integers 2 (-3)).1 (by norm_num) (by norm_num),
    (power_off_integers 2 (1 / 2)).1 (by norm_num) (by norm_num),
    (power_off_integers 2 (5 / 2)).2.1 (by norm_num)⟩

/-! ## Operation counts and array reads of the evaluators -/

/-- The indices `0, 1, ..., d` in ascending order. -/
theorem indices_count (d : Nat) (i : Int) :
    ((List.range (d + 1)).map Int.ofNat).count i = if 0 ≤ i ∧ i ≤ d then 1 else 0 := by
  have hnd : ((List.range (d + 1)).map Int.ofNat).Nodup :=
    List.Nodup.map Int.ofNat_injective (List.nodup_range _)
  rw [List.count_eq_of_nodup hnd]
  have hmem : i ∈ (List.range (d + 1)).map Int.ofNat ↔ 0 ≤ i ∧ i ≤ d := by
    simp only [List.mem_map, List.mem_range]
    constructor
    · rintro ⟨k, hk, rfl⟩
      simp only [Int.ofNat_eq_coe]
      omega
    · rintro ⟨h0, h1⟩
      exact ⟨i.toNat, by omega, by simp only [Int.ofNat_eq_coe]; omega⟩
  simp only [hmem]

theorem powerI_fst (x n : ℚ) : (powerI x n).1 = power x n := by
  by_cases h0 : n = 0
  · simp [powerI, power, h0]
  · rw [powerI, power, if_neg h0, if_neg h0, powerLoopI_eq x ⌈n⌉₊ n x 0 (by omega),
      powerLoop_eq x ⌈n⌉₊ n x (by omega)]

theorem hornerLoopI_rec (c : List ℚ) (x : ℚ) (d : Nat) (hlen : c.length = d + 1) :
    ∀ (m j : Nat) (M : Meter), j + m = d →
      hornerLoopI c x d ((j + 1 : Nat) : Int) (hornerRec c x j) M
        = some (hornerRec c x d,
            ⟨M.mults + m, M.adds + m, M.reads ++ (List.range' (j + 1) m).map Int.ofNat⟩) := by
  intro m
  induction m with
  | zero =>
    intro j M hj
    have : j = d := by omega
    subst this
    rw [hornerLoopI, if_neg (by push_cast; omega)]
    simp
  | succ m ih =>
    intro j M hj
    have hle : ((j + 1 : Nat) : Int) ≤ (d : Int) := by exact_mod_cast (by omega : j + 1 ≤ d)
    rw [hornerLoopI, if_pos hle, readAt_natCast c (j + 1) (by omega)]
    have hstep := ih (j + 1) ⟨M.mults + 1, M.adds + 1, M.reads ++ [((j + 1 : Nat) : Int)]⟩
      (by omega)
    simp only [hornerRec] at hstep
    have hcast : ((j + 1 : Nat) : Int) + 1 = ((j + 1 + 1 : Nat) : Int) := by push_cast; ring
    simp only [hcast]
    rw [hstep, List.range'_succ]
    simp [Nat.add_assoc, Nat.add_comm 1 m]

theorem hornerI_eq (c : List ℚ) (x : ℚ) (d : Nat) (hlen : c.length = d + 1) :
    hornerI c x d
      = some (hornerRec c x d, ⟨d, d, (List.range (d + 1)).map Int.ofNat⟩) := by
  have h0 : readAt c 0 = some (c.getD 0 0) := by
    simpa using readAt_natCast c 0 (by omega)
  rw [hornerI, h0]
  have h := hornerLoopI_rec c x d hlen d 0 ⟨0, 0, [0]⟩ (by omega)
  simp only [hornerRec, Nat.zero_add, Nat.cast_one] at h
  simp only [h, List.range_eq_range', List.range'_succ 0 d]
  simp

theorem simplyLoopI_sum (c : List ℚ) (x : ℚ) (d : Nat) (hlen : c.length = d + 1) :
    ∀ (m : Nat) (value : ℚ) (M : Meter), m ≤ d →
      simplyLoopI c x ((m : Int) - 1) ((d - m : Nat) : ℚ) value M
        = some (value + ∑ i in Finset.range m, c.getD i 0 * power x ((d - i : Nat) : ℚ),
            ⟨M.mults + ∑ i in Finset.range m, ((powerI x ((d - i : Nat) : ℚ)).2 + 1),
              M.adds + m, M.reads ++ ((List.range m).map Int.ofNat).reverse⟩) := by
  intro m
  induction m with
  | zero =>
    intro value M _
    rw [simplyLoopI, if_neg (by norm_num)]
    simp
  | succ m ih =>
    intro value M hm
    have hi : ((m + 1 : Nat) : Int) - 1 = (m : Int) := by push_cast; ring
    have hexp : ((d - (m + 1) : Nat) : ℚ) + 1 = ((d - m : Nat) : ℚ) := by
      have : d - m = (d - (m + 1)) + 1 := by omega
      rw [this]
      push_cast
      ring
    rw [hi, simplyLoopI, if_pos (by omega), readAt_natCast c m (by omega)]
    simp only [hexp, powerI_fst]
    rw [ih _ _ (by omega), Finset.sum_range_succ, Finset.sum_range_succ, List.range_succ]
    simp only [List.map_append, List.reverse_append, List.map_cons, List.map_nil,
      List.reverse_cons, List.reverse_nil, List.nil_append, List.append_assoc,
      Int.ofNat_eq_coe]
    congr 2
    · ring
    · congr 1
      · omega
      · omega

theorem sum_descending (d : Nat) : (∑ i in Finset.range d, (d - i)) * 2 = d * (d + 1) := by
  induction d with
  | zero => simp
  | succ n ih =>
    rw [Finset.sum_range_succ', add_mul]
    simp only [Nat.add_sub_add_right, Nat.sub_zero]
    rw [ih]
    ring

theorem simply_mults (x : ℚ) (d : Nat) :
    ∑ i in Finset.range d, ((powerI x ((d - i : Nat) : ℚ)).2 + 1) = d * (d + 1) / 2 := by
  have h1 : ∀ i ∈ Finset.range d, (powerI x ((d - i : Nat) : ℚ)).2 + 1 = d - i := by
    intro i hi
    have hi2 : i < d := Finset.mem_range.mp hi
    obtain ⟨k, hk⟩ : ∃ k, d - i = k + 1 := ⟨d - i - 1, by omega⟩
    rw [hk, powerI_natCast]
  have h3 : ∑ i in Finset.range d, ((powerI x ((d - i : Nat) : ℚ)).2 + 1)
      = ∑ i in Finset.range d, (d - i) := Finset.sum_congr rfl h1
  rw [h3]
  have h2 := sum_descending d
  generalize d * (d + 1) = X at h2 ⊢
  generalize ∑ i in Finset.range d, (d - i) = S at h2 ⊢
  omega

theorem simply_mults_split (x : ℚ) (d : Nat) :
    d * (d + 1) / 2 = d + ∑ k in Finset.range d, (powerI x ((k + 1 : Nat) : ℚ)).2 := by
  have h1 : ∀ k ∈ Finset.range d, (powerI x ((k + 1 : Nat) : ℚ)).2 = k := by
    intro k _
    rw [powerI_natCast]
  have h4 : ∑ k in Finset.range d, (powerI x ((k + 1 : Nat) : ℚ)).2
      = ∑ k in Finset.range d, k := Finset.sum_congr rfl h1
  rw [h4]
  have h2 := Finset.sum_range_id_mul_two d
  have h3 : d * (d + 1) = d * (d - 1) + 2 * d := by
    cases d with
    | zero => rfl
    | succ n => simp only [Nat.add_sub_cancel]; ring
  rw [h3]
  generalize d * (d - 1) = X at h2 ⊢
  generalize ∑ k in Finset.range d, k = S at h2 ⊢
  omega

theorem simplyI_eq (c : List ℚ) (x : ℚ) (d : Nat) (hlen : c.length = d + 1) :
    simplyI c x d
      = some (powerSum c x d,
          ⟨d * (d + 1) / 2, d, ((List.range (d + 1)).map Int.ofNat).reverse⟩) := by
  rw [simplyI, readAt_natCast c d (by omega)]
  have h := simplyLoopI_sum c x d hlen d (c.getD d 0) ⟨0, 0, [(d : Int)]⟩ (le_refl d)
  simp only [Nat.sub_self, Nat.cast_zero] at h
  simp only [h, simply_mults, powerSum, Finset.sum_range_succ, Nat.sub_self, Nat.cast_zero,
    power, List.range_succ, List.map_append, List.reverse_append]
  simp [add_comm]

/-- C15: for a coefficient list of length `d + 1`, the instrumented `horner`
performs exactly `d` multiplications and `d` additions, reading the
coefficients once each in ascending order, and the instrumented `simply`
performs exactly `d(d+1)/2` multiplications: `d` coefficient products plus the
`k - 1` multiplications made inside `power(x, k)` for `k = 1 .. d`.  Both
return the value of the evaluator they instrument. -/
theorem multiplication_counts (c : List ℚ) (x : ℚ) (d : Nat) (hlen : c.length = d + 1) :
    (∃ v M, hornerI c x d = some (v, M) ∧ horner c x d = some v ∧
        M.mults = d ∧ M.adds = d ∧ M.reads = (List.range (d + 1)).map Int.ofNat) ∧
      (∃ v M, simplyI c x d = some (v, M) ∧ simply c x d = some v ∧
        M.mults = d * (d + 1) / 2 ∧
        M.mults = d + ∑ k in Finset.range d, (powerI x ((k + 1 : Nat) : ℚ)).2 ∧
        ∀ k, k < d → (powerI x ((k + 1 : Nat) : ℚ)).2 = k) := by
  refine ⟨⟨_, _, hornerI_eq c x d hlen, horner_eq_rec c x d hlen, rfl, rfl, rfl⟩,
    ⟨_, _, simplyI_eq c x d hlen, simply_eq_powerSum c x d hlen, rfl,
      simply_mults_split x d, ?_⟩⟩
  intro k _
  rw [powerI_natCast]

theorem multiplication_counts_witness :
    ([3, 2, -1, 1] : List ℚ).length = 3 + 1 ∧
      (∃ v M, hornerI [3, 2, -1, 1] (1 / 2) (3 : Nat) = some (v, M) ∧
        horner [3, 2, -1, 1] (1 / 2) (3 : Nat) = some v ∧
        M.mults = 3 ∧ M.adds = 3 ∧ M.reads = (List.range (3 + 1)).map Int.ofNat) ∧
      (∃ v M, simplyI [3, 2, -1, 1] (1 / 2) (3 : Nat) = some (v, M) ∧
        simply [3, 2, -1, 1] (1 / 2) (3 : Nat) = some v ∧
        M.mults = 3 * (3 + 1) / 2 ∧
        M.mults = 3 + ∑ k in Finset.range 3, (powerI (1 / 2) ((k + 1 : Nat) : ℚ)).2 ∧
        ∀ k, k < 3 → (powerI (1 / 2) ((k + 1 : Nat) : ℚ)).2 = k) :=
  ⟨rfl, multiplication_counts [3, 2, -1, 1] (1 / 2) 3 rfl⟩

/-- C18: for a coefficient array of length `d + 1`, neither evaluator reaches
the out-of-bounds result; `horner` reads the indices `0, 1, ..., d` in this
order and `simply` reads `d, d - 1, ..., 0`, so every index read lies in
`0 .. d` and each index of `0 .. d` is read exactly once. -/
theorem reads_within_bounds (c : List ℚ) (x : ℚ) (d : Nat) (hlen : c.length = d + 1) :
    (∃ v M, hornerI c x d = some (v, M) ∧ horner c x d = some v ∧
        M.reads = (List.range (d + 1)).map Int.ofNat ∧
        ∀ i : Int, M.reads.count i = if 0 ≤ i ∧ i ≤ d then 1 else 0) ∧
      (∃ v M, simplyI c x d = some (v, M) ∧ simply c x d = some v ∧
        M.reads = ((List.range (d + 1)).map Int.ofNat).reverse ∧
        ∀ i : Int, M.reads.count i = if 0 ≤ i ∧ i ≤ d then 1 else 0) := by
  refine ⟨⟨_, _, hornerI_eq c x d hlen, horner_eq_rec c x d hlen, rfl, ?_⟩,
    ⟨_, _, simplyI_eq c x d hlen, simply_eq_powerSum c x d hlen, rfl, ?_⟩⟩
  · intro i
    exact indices_count d i
  · intro i
    show (((List.range (d + 1)).map Int.ofNat).reverse).count i = _
    rw [List.count_reverse]
    exact indices_count d i

theorem reads_within_bounds_witness :
    ([2, 1, 1] : List ℚ).length = 2 + 1 ∧
      (∃ v M, hornerI [2, 1, 1] (1 / 10) (2 : Nat) = some (v, M) ∧
        horner [2, 1, 1] (1 / 10) (2 : Nat) = some v ∧
        M.reads = (List.range (2 + 1)).map Int.ofNat ∧
        ∀ i : Int, M.reads.count i = if 0 ≤ i ∧ i ≤ (2 : Nat) then 1 else 0) ∧
      (∃ v M, simplyI [2, 1, 1] (1 / 10) (2 : Nat) = some (v, M) ∧
        simply [2, 1, 1] (1 / 10) (2 : Nat) = some v ∧
        M.reads = ((List.range (2 + 1)).map Int.ofNat).reverse ∧
        ∀ i : Int, M.reads.count i = if 0 ≤ i ∧ i ≤ (2 : Nat) then 1 else 0) :=
  ⟨rfl, reads_within_bounds [2, 1, 1] (1 / 10) 2 rfl⟩

/-! ## The report sink: scaling and boundaries -/

theorem cond_ms (t : ℚ) : (t / 100000) > (1.0 : ℚ) ↔ 100000 < t := by
  rw [gt_iff_lt, show (1.0 : ℚ) = 1 by norm_num, lt_div_iff₀ (by norm_num)]
  constructor <;> intro h <;> linarith

theorem cond_sec (t : ℚ) : ((t / 100000) / 1000) > (1.0 : ℚ) ↔ 100000000 < t := by
  rw [gt_iff_lt, show (1.0 : ℚ) = 1 by norm_num, lt_div_iff₀ (by norm_num),
    lt_div_iff₀ (by norm_num)]
  constructor <;> intro h <;> linarith

theorem cond_min (t : ℚ) : (((t / 100000) / 1000) / 60) > (1.0 : ℚ) ↔ 6000000000 < t := by
  rw [gt_iff_lt, show (1.0 : ℚ) = 1 by norm_num, lt_div_iff₀ (by norm_num),
    lt_div_iff₀ (by norm_num), lt_div_iff₀ (by norm_num)]
  constructor <;> intro h <;> linarith

theorem getReadableTime_ns (to_string : ℚ → String) (t : ℚ) (h : t ≤ 100000) :
    getReadableTime to_string t = to_string t ++ " ns." := by
  simp only [getReadableTime, cond_ms, cond_sec, cond_min]
  split_ifs <;> first | rfl | (exfalso; linarith)

theorem getReadableTime_ms (to_string : ℚ → String) (t : ℚ) (h1 : 100000 < t)
    (h2 : t ≤ 100000000) :
    getReadableTime to_string t = to_string (t / 100000) ++ " ms." := by
  simp only [getReadableTime, cond_ms, cond_sec, cond_min]
  split_ifs <;> first | rfl | (exfalso; linarith)

theorem getReadableTime_sec (to_string : ℚ → String) (t : ℚ) (h1 : 100000000 < t)
    (h2 : t ≤ 6000000000) :
    getReadableTime to_string t = to_string ((t / 100000) / 1000) ++ " sec." := by
  simp only [getReadableTime, cond_ms, cond_sec, cond_min]
  split_ifs <;> first | rfl | (exfalso; linarith)

theorem getReadableTime_min (to_string : ℚ → String) (t : ℚ) (h1 : 6000000000 < t) :
    getReadableTime to_string t = to_string (((t / 100000) / 1000) / 60) ++ " min." := by
  simp only [getReadableTime, cond_ms, cond_sec, cond_min, if_pos h1]

theorem hasSuffix_append (a ending : String) : hasSuffix (a ++ ending) ending := by
  simp [hasSuffix]

theorem not_hasSuffix_append (a e1 e2 : String) (h12 : ¬ e1.data <:+ e2.data)
    (h21 : ¬ e2.data <:+ e1.data) : ¬ hasSuffix (a ++ e1) e2 := by
  intro h
  have h1 : e1.data <:+ (a ++ e1).data := by simp
  rcases List.suffix_or_suffix_of_suffix h1 h with h3 | h3
  · exact h12 h3
  · exact h21 h3

/-- C12: `getReadableTime` does not convert the duration into the unit it
prints.  A duration of 500,000 ns, which is 0.5 ms, is rendered as "5 ms.";
in general the number printed with " ms.", " sec." or " min." is ten times the
duration expressed in that unit, since the first divisor is 100000 and not
1000000. -/
theorem getReadableTime_scale_off (to_string : ℚ → String) :
    getReadableTime to_string 500000 = to_string 5 ++ " ms." ∧
      (5 : ℚ) ≠ 500000 / TimeUnit.nanos TimeUnit.ms ∧
      ∀ t : ℚ, 100000 < t →
        getReadableTime to_string t
            = to_string (10 * (t / TimeUnit.nanos (largestUnit t)))
              ++ (largestUnit t).suffix ∧
          10 * (t / TimeUnit.nanos (largestUnit t)) ≠ t / TimeUnit.nanos (largestUnit t) := by
  refine ⟨?_, ?_, ?_⟩
  · rw [getReadableTime_ms to_string 500000 (by norm_num) (by norm_num)]
    norm_num
  · norm_num [TimeUnit.nanos]
  · intro t ht
    by_cases h2 : t ≤ 100000000
    · have hu : largestUnit t = TimeUnit.ms := by
        simp only [largestUnit, TimeUnit.scaled]
        rw [if_neg (by rw [gt_iff_lt, lt_div_iff₀ (by norm_num), lt_div_iff₀ (by norm_num),
          lt_div_iff₀ (by norm_num)]; linarith),
          if_neg (by rw [gt_iff_lt, lt_div_iff₀ (by norm_num), lt_div_iff₀ (by norm_num)]
                     linarith),
          if_pos (by rw [gt_iff_lt, lt_div_iff₀ (by norm_num)]; linarith)]
      rw [hu, getReadableTime_ms to_string t ht h2]
      simp only [TimeUnit.nanos, TimeUnit.suffix]
      refine ⟨by congr 2; ring, ?_⟩
      intro h
      have : t / 10 ^ 6 = 0 := by linarith
      have : t = 0 := by simpa using this
      linarith
    · by_cases h3 : t ≤ 6000000000
      · have hu : largestUnit t = TimeUnit.sec := by
          simp only [largestUnit, TimeUnit.scaled]
          rw [if_neg (by rw [gt_iff_lt, lt_div_iff₀ (by norm_num), lt_div_iff₀ (by norm_num),
            lt_div_iff₀ (by norm_num)]; linarith),
            if_pos (by rw [gt_iff_lt, lt_div_iff₀ (by norm_num), lt_div_iff₀ (by norm_num)]
                       linarith)]
        rw [hu, getReadableTime_sec to_string t (by linarith) h3]
        simp only [TimeUnit.nanos, TimeUnit.suffix]
        refine ⟨by congr 2; ring, ?_⟩
        intro h
        have : t / 10 ^ 9 = 0 := by linarith
        have : t = 0 := by simpa using this
        linarith
      · have hu : largestUnit t = TimeUnit.min := by
          simp only [largestUnit, TimeUnit.scaled]
          rw [if_pos (by rw [gt_iff_lt, lt_div_iff₀ (by norm_num), lt_div_iff₀ (by norm_num),
            lt_div_iff₀ (by norm_num)]; linarith)]
        rw [hu, getReadableTime_min to_string t (by linarith)]
        simp only [TimeUnit.nanos, TimeUnit.suffix]
        refine ⟨by congr 2; ring, ?_⟩
        intro h
        have : t / (60 * 10 ^ 9) = 0 := by linarith
        have : t = 0 := by simpa using this
        linarith

theorem getReadableTime_scale_off_witness :
    (100000 : ℚ) < 200000000 ∧
      getReadableTime (fun _ => "") 200000000
          = (fun _ => "") (10 * ((200000000 : ℚ) / TimeUnit.nanos (largestUnit 200000000)))
            ++ (largestUnit 200000000).suffix ∧
        10 * ((200000000 : ℚ) / TimeUnit.nanos (largestUnit 200000000))
          ≠ 200000000 / TimeUnit.nanos (largestUnit 200000000) :=
  ⟨by norm_num, (getReadableTime_scale_off (fun _ => "")).2.2 200000000 (by norm_num)⟩

/-- C19: the unit boundaries of `getReadableTime`.  The result ends with
" ns." iff `t ≤ 100000`, with " ms." iff `100000 < t ≤ 100000000`, with " sec."
iff `100000000 < t ≤ 6000000000` and with " min." iff `t > 6000000000`; the
number printed is `t`, `t/100000`, `t/100000/1000` and `t/100000/1000/60`
respectively. -/
theorem getReadableTime_boundaries (to_string : ℚ → String) (t : ℚ) :
    (hasSuffix (getReadableTime to_string t) " ns." ↔ t ≤ 100000) ∧
      (hasSuffix (getReadableTime to_string t) " ms." ↔ 100000 < t ∧ t ≤ 100000000) ∧
      (hasSuffix (getReadableTime to_string t) " sec." ↔
        100000000 < t ∧ t ≤ 6000000000) ∧
      (hasSuffix (getReadableTime to_string t) " min." ↔ 6000000000 < t) ∧
      (t ≤ 100000 → getReadableTime to_string t = to_string t ++ " ns.") ∧
      (100000 < t ∧ t ≤ 100000000 →
        getReadableTime to_string t = to_string (t / 100000) ++ " ms.") ∧
      (100000000 < t ∧ t ≤ 6000000000 →
        getReadableTime to_string t = to_string (t / 100000 / 1000) ++ " sec.") ∧
      (6000000000 < t →
        getReadableTime to_string t = to_string (t / 100000 / 1000 / 60) ++ " min.") := by
  refine ⟨?_, ?_, ?_, ?_, getReadableTime_ns to_string t,
    fun h => getReadableTime_ms to_string t h.1 h.2,
    fun h => getReadableTime_sec to_string t h.1 h.2, getReadableTime_min to_string t⟩
  all_goals
    rcases le_or_lt t 100000 with h1 | h1
    · rw [getReadableTime_ns to_string t h1]
      first
        | exact iff_of_true (hasSuffix_append _ _) h1
        | exact iff_of_false (not_hasSuffix_append _ _ _ (by decide) (by decide))
            (by intro h; linarith [h.1])
        | exact iff_of_false (not_hasSuffix_append _ _ _ (by decide) (by decide))
            (by intro h; linarith)
    · rcases le_or_lt t 100000000 with h2 | h2
      · rw [getReadableTime_ms to_string t h1 h2]
        first
          | exact iff_of_true (hasSuffix_append _ _) ⟨h1, h2⟩
          | exact iff_of_false (not_hasSuffix_append _ _ _ (by decide) (by decide))
              (by intro h; linarith [h.1])
          | exact iff_of_false (not_hasSuffix_append _ _ _ (by decide) (by decide))
              (by intro h; linarith)
      · rcases le_or_lt t 6000000000 with h3 | h3
        · rw [getReadableTime_sec to_string t h2 h3]
          first
            | exact iff_of_true (hasSuffix_append _ _) ⟨h2, h3⟩
            | exact iff_of_false (not_hasSuffix_append _ _ _ (by decide) (by decide))
                (by intro h; linarith [h.1, h.2])
            | exact iff_of_false (not_hasSuffix_append _ _ _ (by decide) (by decide))
                (by intro h; linarith)
        · rw [getReadableTime_min to_string t h3]
          first
            | exact iff_of_true (hasSuffix_append _ _) h3
            | exact iff_of_false (not_hasSuffix_append _ _ _ (by decide) (by decide))
                (by intro h; linarith [h.1, h.2])
            | exact iff_of_false (not_hasSuffix_append _ _ _ (by decide) (by decide))
                (by intro h; linarith)

theorem getReadableTime_boundaries_witness :
    hasSuffix (getReadableTime (fun _ => "0") 0) " ns." ∧
      getReadableTime (fun _ => "0") 0 = (fun _ => "0") (0 : ℚ) ++ " ns." ∧
      getReadableTime (fun _ => "0") 100000001
        = (fun _ => "0") ((100000001 : ℚ) / 100000 / 1000) ++ " sec." :=
  ⟨(getReadableTime_boundaries (fun _ => "0") 0).1.mpr (by norm_num),
    (getReadableTime_boundaries (fun _ => "0") 0).2.2.2.2.1 (by norm_num),
    (getReadableTime_boundaries (fun _ => "0") 100000001).2.2.2.2.2.2.1
      ⟨by norm_num, by norm_num⟩⟩
/-! ## The timing harness: what is reported -/

/-- C13: the harness calls `printResult` once, with the degree and the point
it was given and with the value returned by `horner` as result; a value of
`simply` that differs from it is never reported. -/
theorem reported_result_is_horner (clock : Nat → Int) (tick : Nat) (factors : List ℚ)
    (position : ℚ) (degree : Int) :
    (∃ timeHorner timeSimply,
        printResultCalls (executeWithTimeMeasuring clock tick factors position degree).1
          = [Event.printResult degree position (horner factors position degree)
              timeHorner timeSimply]) ∧
      (simply factors position degree ≠ horner factors position degree →
        ∀ d p timeHorner timeSimply,
          Event.printResult d p (simply factors position degree) timeHorner timeSimply
            ∉ (executeWithTimeMeasuring clock tick factors position degree).1) := by
  by_cases h : degree ≤ 100000
  · refine ⟨⟨((clock (tick + 1) - clock tick : Int) : ℚ),
      ((clock (tick + 3) - clock (tick + 2) : Int) : ℚ), ?_⟩, ?_⟩
    · simp only [executeWithTimeMeasuring, if_pos h, printResultCalls]
      rfl
    · intro hne d p th ts hmem
      simp only [executeWithTimeMeasuring, if_pos h] at hmem
      simp at hmem
      exact hne hmem.2.2.1
  · refine ⟨⟨((clock (tick + 1) - clock tick : Int) : ℚ), 0.0, ?_⟩, ?_⟩
    · simp only [executeWithTimeMeasuring, if_neg h, printResultCalls]
      rfl
    · intro hne d p th ts hmem
      simp only [executeWithTimeMeasuring, if_neg h] at hmem
      simp at hmem
      exact hne hmem.2.2.1

theorem horner_negative_degree : horner [5] 2 (-1) = some 5 := by
  simp [horner, hornerLoop, readAt]

theorem simply_negative_degree : simply [5] 2 (-1) = none := by
  simp [simply, readAt]

theorem reported_result_is_horner_witness :
    simply [5] 2 (-1) ≠ horner [5] 2 (-1) ∧
      ∀ d p timeHorner timeSimply,
        Event.printResult d p (simply [5] 2 (-1)) timeHorner timeSimply
          ∉ (executeWithTimeMeasuring (fun n => n) 0 [5] 2 (-1)).1 :=
  ⟨by rw [horner_negative_degree, simply_negative_degree]; simp,
    (reported_result_is_horner (fun n => n) 0 [5] 2 (-1)).2
      (by rw [horner_negative_degree, simply_negative_degree]; simp)⟩

/-! ## The random input generator: distinct draws -/

theorem draw_injective (RAND_MAX : Int) (hmax : 0 < RAND_MAX) (s1 s2 : RandState)
    (h : s1.raw s1.calls ≠ s2.raw s2.calls) :
    (getRandomDouble RAND_MAX s1).1 ≠ (getRandomDouble RAND_MAX s2).1 := by
  simp only [getRandomDouble, rand]
  intro heq
  apply h
  have hM : (RAND_MAX : ℚ) ≠ 0 := by exact_mod_cast hmax.ne.symm
  have h1 : (s1.raw s1.calls : ℚ) / (RAND_MAX : ℚ) = (s2.raw s2.calls : ℚ) / (RAND_MAX : ℚ) := by
    have h9 : ((1.0 : ℚ) - 0.1) ≠ 0 := by norm_num
    have := add_right_cancel heq
    exact mul_right_cancel₀ h9 this
  field_simp at h1
  exact_mod_cast h1

theorem selftest_evaluations :
    horner [2.0, 1.0, 1.0] 1.0 2 = some 4.0 ∧ simply [2.0, 1.0, 1.0] 1.0 2 = some 4.0 ∧
      within (horner [2.0, 1.0, 1.0] 0.1 2) 1.12 (1.12 * 0.000001) = true ∧
      within (simply [2.0, 1.0, 1.0] 0.1 2) 1.12 (1.12 * 0.000001) = true ∧
      horner [3.0, 2.0, -1.0, 1.0] 0.5 3 = some 1.375 ∧
      simply [3.0, 2.0, -1.0, 1.0] 0.5 3 = some 1.375 := by
  refine ⟨?_, ?_, ?_, ?_, ?_, ?_⟩
  · simp [horner, hornerLoop, readAt]; norm_num
  · simp [simply, simplyLoop, readAt, power, powerLoop]; norm_num
  · simp [within, horner, hornerLoop, readAt]; norm_num
  · simp [within, simply, simplyLoop, readAt, power, powerLoop]; norm_num
  · simp [horner, hornerLoop, readAt]; norm_num
  · simp [simply, simplyLoop, readAt, power, powerLoop]; norm_num

theorem test_eq (RAND_MAX : Int) (s : RandState) :
    test RAND_MAX s
      = if (getRandomDouble RAND_MAX s).1
            ≠ (getRandomDouble RAND_MAX (getRandomDouble RAND_MAX s).2).1
        then some (getRandomDouble RAND_MAX (getRandomDouble RAND_MAX s).2).2 else none := by
  obtain ⟨h1, h2, h3, h4, h5, h6⟩ := selftest_evaluations
  simp only [test, h1, h2, h3, h4, h5, h6]
  simp

/-- C17: the draw is an injective function of the raw generator output, so
the self-test, whose other assertions hold, passes its assertion
`rand1 != rand2` whenever the first two raw outputs differ, and only then. -/
theorem distinct_raw_distinct_draws (RAND_MAX : Int) (hmax : 0 < RAND_MAX) :
    (∀ s1 s2 : RandState, s1.raw s1.calls ≠ s2.raw s2.calls →
        (getRandomDouble RAND_MAX s1).1 ≠ (getRandomDouble RAND_MAX s2).1) ∧
      (∀ s : RandState, s.raw s.calls ≠ s.raw (s.calls + 1) →
        (getRandomDouble RAND_MAX s).1
            ≠ (getRandomDouble RAND_MAX (getRandomDouble RAND_MAX s).2).1 ∧
          test RAND_MAX s = some (RandState.mk s.raw (s.calls + 2))) ∧
      (∀ s : RandState, s.raw s.calls = s.raw (s.calls + 1) → test RAND_MAX s = none) := by
  refine ⟨draw_injective RAND_MAX hmax, ?_, ?_⟩
  · intro s h
    have hd : (getRandomDouble RAND_MAX s).1
        ≠ (getRandomDouble RAND_MAX (getRandomDouble RAND_MAX s).2).1 :=
      draw_injective RAND_MAX hmax s _ h
    refine ⟨hd, ?_⟩
    rw [test_eq, if_pos hd]
    rfl
  · intro s h
    rw [test_eq, if_neg]
    simp only [getRandomDouble, rand, h]
    simp

theorem distinct_raw_distinct_draws_witness :
    (0 : Int) < 2147483647 ∧
      (RandState.mk (fun n => n) 0).raw 0 ≠ (RandState.mk (fun n => n) 0).raw (0 + 1) ∧
      ((getRandomDouble 2147483647 (RandState.mk (fun n => n) 0)).1
          ≠ (getRandomDouble 2147483647
              (getRandomDouble 2147483647 (RandState.mk (fun n => n) 0)).2).1 ∧
        test 2147483647 (RandState.mk (fun n => n) 0)
          = some (RandState.mk (fun n => n) (0 + 2))) :=
  ⟨by decide, by decide, (distinct_raw_distinct_draws 2147483647 (by decide)).2.1
    (RandState.mk (fun n => n) 0) (by decide)⟩

/-! ## Filling the coefficient array -/

theorem fulfillLoop_spec (RAND_MAX : Int) (n : Nat) :
    ∀ (m i : Nat) (array : List ℚ) (s : RandState) (writes : List Int),
      i + m = n → n ≤ array.length →
      ∃ array', fulfillLoop RAND_MAX n i array s writes
          = some (array', RandState.mk s.raw (s.calls + m),
              writes ++ (List.range' i m).map Int.ofNat) ∧
        array'.length = array.length ∧
        ∀ j, array'[j]? = if i ≤ j ∧ j < n
          then some (getRandomDouble RAND_MAX (RandState.mk s.raw (s.calls + (j - i)))).1
          else array[j]? := by
  intro m
  induction m with
  | zero =>
    intro i array s writes hi _
    refine ⟨array, ?_, rfl, ?_⟩
    · rw [fulfillLoop, if_neg (by omega)]
      simp
    · intro j
      rw [if_neg (by omega)]
  | succ m ih =>
    intro i array s writes hi hlen
    have hw : writeAt array (i : Int) (getRandomDouble RAND_MAX s).1
        = some (array.set i (getRandomDouble RAND_MAX s).1) := by
      rw [writeAt, if_pos ⟨by omega, by simp only [Int.toNat_ofNat]; omega⟩]
      simp
    obtain ⟨array', h1, h2, h3⟩ := ih (i + 1) (array.set i (getRandomDouble RAND_MAX s).1)
      (getRandomDouble RAND_MAX s).2 (writes ++ [(i : Int)]) (by omega)
      (by rw [List.length_set]; exact hlen)
    refine ⟨array', ?_, ?_, ?_⟩
    · rw [fulfillLoop, if_pos (by omega), hw]
      have hcast : (i : Int) + 1 = ((i + 1 : Nat) : Int) := by push_cast; ring
      simp only [hcast]
      rw [h1, List.range'_succ]
      simp [getRandomDouble, rand, Nat.add_assoc, Nat.add_comm 1 m]
    · rw [h2, List.length_set]
    · intro j
      rw [h3 j, List.getElem?_set]
      by_cases hj1 : i + 1 ≤ j ∧ j < n
      · rw [if_pos hj1, if_pos ⟨by omega, hj1.2⟩]
        have : (getRandomDouble RAND_MAX s).2.calls + (j - (i + 1)) = s.calls + (j - i) := by
          show s.calls + 1 + (j - (i + 1)) = s.calls + (j - i)
          omega
        simp only [getRandomDouble, rand] at this ⊢
        rw [this]
      · rw [if_neg hj1]
        by_cases hj2 : i = j
        · subst hj2
          rw [if_pos rfl, if_pos (by omega), if_pos ⟨le_refl _, by omega⟩]
          simp
        · rw [if_neg hj2, if_neg (by omega)]

theorem fulfillWithRandoms_spec (RAND_MAX : Int) (array : List ℚ) (n : Nat) (s : RandState)
    (hlen : n ≤ array.length) :
    ∃ array', fulfillWithRandoms RAND_MAX array n s
        = some (array', RandState.mk s.raw (s.calls + n), (List.range n).map Int.ofNat) ∧
      array'.length = array.length ∧
      (∀ j, j < n →
        array'[j]? = some (getRandomDouble RAND_MAX (RandState.mk s.raw (s.calls + j))).1) ∧
      (∀ j, n ≤ j → array'[j]? = array[j]?) := by
  obtain ⟨array', h1, h2, h3⟩ := fulfillLoop_spec RAND_MAX n n 0 array s [] (by omega) hlen
  refine ⟨array', ?_, h2, ?_, ?_⟩
  · rw [fulfillWithRandoms]
    simpa [List.range_eq_range'] using h1
  · intro j hj
    rw [h3 j, if_pos ⟨by omega, hj⟩]
    simp
  · intro j hj
    rw [h3 j, if_neg (by omega)]

theorem wrapInt_natCast (n : Nat) (h : n ≤ 2147483647) : wrapInt (n : Int) = (n : Int) := by
  unfold wrapInt
  omega

theorem runTrial_spec (RAND_MAX : Int) (clock : Nat → Int) (newOk : World → Nat → Bool)
    (d : Nat) (hd : d < 2147483647) (w : World) (hnew : newOk w (d + 1) = true) :
    ∃ factors,
      runTrial RAND_MAX clock newOk d w
        = some (World.mk w.input (RandState.mk w.rng.raw (w.rng.calls + (d + 1) + 1))
              (executeWithTimeMeasuring clock w.tick factors
                (getRandomDouble RAND_MAX
                  (RandState.mk w.rng.raw (w.rng.calls + (d + 1)))).1 d).2,
            SweepEvent.trial factors
              (getRandomDouble RAND_MAX (RandState.mk w.rng.raw (w.rng.calls + (d + 1)))).1 d
              (executeWithTimeMeasuring clock w.tick factors
                (getRandomDouble RAND_MAX
                  (RandState.mk w.rng.raw (w.rng.calls + (d + 1)))).1 d).1) ∧
      factors.length = d + 1 ∧
      ∀ j, j < d + 1 → factors[j]?
        = some (getRandomDouble RAND_MAX (RandState.mk w.rng.raw (w.rng.calls + j))).1 := by
  obtain ⟨factors, h1, h2, h3, _⟩ := fulfillWithRandoms_spec RAND_MAX
    (List.replicate (d + 1) 0) (d + 1) w.rng (by simp)
  refine ⟨factors, ?_, by simpa using h2, h3⟩
  have hcast : (d : Int) + 1 = ((d + 1 : Nat) : Int) := by push_cast; ring
  have hwrap : wrapInt ((d + 1 : Nat) : Int) = ((d + 1 : Nat) : Int) :=
    wrapInt_natCast (d + 1) (by omega)
  have htoNat : ((d + 1 : Nat) : Int).toNat = d + 1 := Int.toNat_ofNat _
  simp only [runTrial, hcast, hwrap, htoNat]
  rw [if_neg (by omega), if_neg (by rw [hnew]; simp), h1]
  rfl

theorem runTrial_int_max (RAND_MAX : Int) (clock : Nat → Int) (newOk : World → Nat → Bool)
    (w : World) : runTrial RAND_MAX clock newOk 2147483647 w = none := by
  have hwrap : wrapInt (2147483647 + 1) = -2147483648 := by
    unfold wrapInt
    norm_num
  simp only [runTrial, hwrap]
  rw [if_pos (by norm_num)]

theorem runTrial_no_storage (RAND_MAX : Int) (clock : Nat → Int) (newOk : World → Nat → Bool)
    (d : Int) (h0 : 0 ≤ d) (hd : d < 2147483647) (w : World)
    (hnew : newOk w (d + 1).toNat = false) : runTrial RAND_MAX clock newOk d w = none := by
  have hwrap : wrapInt (d + 1) = d + 1 := by
    unfold wrapInt
    omega
  simp only [runTrial, hwrap]
  rw [if_neg (by omega), if_pos hnew]

theorem runTrial_trial (RAND_MAX : Int) (clock : Nat → Int) (newOk : World → Nat → Bool)
    (d : Int) (h0 : 0 ≤ d) (hd : d < 2147483647) (w : World)
    (hnew : newOk w (d + 1).toNat = true) :
    ∃ w' factors position,
      runTrial RAND_MAX clock newOk d w
        = some (w', SweepEvent.trial factors position d
            (executeWithTimeMeasuring clock w.tick factors position d).1) ∧
      w'.input = w.input ∧ (factors.length : Int) = d + 1 ∧
      ∀ j : Nat, (j : Int) < d + 1 → factors[j]?
        = some (getRandomDouble RAND_MAX (RandState.mk w.rng.raw (w.rng.calls + j))).1 := by
  obtain ⟨k, rfl⟩ := Int.eq_ofNat_of_zero_le h0
  have hk : ((k : Int) + 1).toNat = k + 1 := by omega
  rw [hk] at hnew
  obtain ⟨factors, h1, h2, h3⟩ := runTrial_spec RAND_MAX clock newOk k (by omega) w hnew
  refine ⟨_, factors, _, h1, rfl, by rw [h2]; push_cast; ring, ?_⟩
  intro j hj
  exact h3 j (by omega)

/-- C16: `fulfillWithRandoms(array, length)` on an array of at least `length`
entries assigns the indices `0, 1, ..., length - 1` once each, in this order,
and no other index; entry `j` receives the `j`-th successive draw and the
entries from `length` on are unchanged.  For an `int` degree `d >= 0`, every
trial hands the harness a coefficient sequence of length exactly `d + 1` whose
every entry is such a draw.  Such a trial takes place for every `d` below
`INT_MAX = 2147483647` for which `new` finds storage; at `d = INT_MAX`, and
where storage is missing, `new` throws and there is no trial. -/
theorem coefficients_filled (RAND_MAX : Int) :
    (∀ (array : List ℚ) (n : Nat) (s : RandState), n ≤ array.length →
        ∃ array', fulfillWithRandoms RAND_MAX array n s
            = some (array', RandState.mk s.raw (s.calls + n),
                (List.range n).map Int.ofNat) ∧
          array'.length = array.length ∧
          (∀ j, j < n → array'[j]?
            = some (getRandomDouble RAND_MAX (RandState.mk s.raw (s.calls + j))).1) ∧
          (∀ j, n ≤ j → array'[j]? = array[j]?)) ∧
      (∀ (clock : Nat → Int) (newOk : World → Nat → Bool) (w w' : World) (d : Int)
          (e : SweepEvent),
        0 ≤ d → d ≤ 2147483647 → runTrial RAND_MAX clock newOk d w = some (w', e) →
        ∃ factors position,
          e = SweepEvent.trial factors position d
              (executeWithTimeMeasuring clock w.tick factors position d).1 ∧
          (factors.length : Int) = d + 1 ∧
          ∀ j : Nat, (j : Int) < d + 1 → factors[j]?
            = some (getRandomDouble RAND_MAX (RandState.mk w.rng.raw (w.rng.calls + j))).1) ∧
      (∀ (clock : Nat → Int) (newOk : World → Nat → Bool) (w : World) (d : Int),
        0 ≤ d → d < 2147483647 → newOk w (d + 1).toNat = true →
        ∃ w' e, runTrial RAND_MAX clock newOk d w = some (w', e)) ∧
      (∀ (clock : Nat → Int) (newOk : World → Nat → Bool) (w : World),
        runTrial RAND_MAX clock newOk 2147483647 w = none) ∧
      (∀ (clock : Nat → Int) (newOk : World → Nat → Bool) (w : World) (d : Int),
        0 ≤ d → d < 2147483647 → newOk w (d + 1).toNat = false →
        runTrial RAND_MAX clock newOk d w = none) := by
  refine ⟨fun array n s h => fulfillWithRandoms_spec RAND_MAX array n s h, ?_, ?_,
    runTrial_int_max RAND_MAX,
    fun clock newOk w d h0 hd hnew => runTrial_no_storage RAND_MAX clock newOk d h0 hd w hnew⟩
  · intro clock newOk w w' d e h0 hd hrun
    rcases eq_or_lt_of_le hd with hmax | hlt
    · rw [hmax, runTrial_int_max] at hrun
      exact absurd hrun (by simp)
    · cases hnew : newOk w (d + 1).toNat with
      | false =>
        rw [runTrial_no_storage RAND_MAX clock newOk d h0 hlt w hnew] at hrun
        exact absurd hrun (by simp)
      | true =>
        obtain ⟨w1, factors, position, h1, _, h2, h3⟩ :=
          runTrial_trial RAND_MAX clock newOk d h0 hlt w hnew
        rw [h1] at hrun
        have he := (Prod.mk.inj (Option.some.inj hrun)).2
        exact ⟨factors, position, he.symm, h2, h3⟩
  · intro clock newOk w d h0 hd hnew
    obtain ⟨w1, factors, position, h1, _⟩ := runTrial_trial RAND_MAX clock newOk d h0 hd w hnew
    exact ⟨_, _, h1⟩

theorem coefficients_filled_witness :
    (3 ≤ ([0, 0, 0, 7] : List ℚ).length ∧
      ∃ array', fulfillWithRandoms 10 [0, 0, 0, 7] (3 : Nat) (RandState.mk (fun n => n) 0)
          = some (array', RandState.mk (fun n => n) (0 + 3), (List.range 3).map Int.ofNat) ∧
        array'.length = ([0, 0, 0, 7] : List ℚ).length ∧
        (∀ j, j < 3 → array'[j]?
          = some (getRandomDouble 10 (RandState.mk (fun n => n) (0 + j))).1) ∧
        (∀ j, 3 ≤ j → array'[j]? = ([0, 0, 0, 7] : List ℚ)[j]?)) ∧
      ((0 : Int) ≤ 2 ∧ (2 : Int) < 2147483647 ∧
        (fun (_ : World) (_ : Nat) => true) (World.mk [] (RandState.mk (fun n => n) 0) 0)
          ((2 : Int) + 1).toNat = true ∧
        ∃ w' e, runTrial 10 (fun n => n) (fun _ _ => true) 2
            (World.mk [] (RandState.mk (fun n => n) 0) 0)
          = some (w', e)) :=
  ⟨⟨by decide, (coefficients_filled 10).1 [0, 0, 0, 7] 3 (RandState.mk (fun n => n) 0)
      (by decide)⟩,
    ⟨by decide, by decide, rfl,
      (coefficients_filled 10).2.2.1 (fun n => n) (fun _ _ => true)
        (World.mk [] (RandState.mk (fun n => n) 0) 0) 2 (by decide) (by decide) rfl⟩⟩

/-! ## The sweep driver -/

theorem steps_append (a b : List SweepEvent) : steps (a ++ b) = steps a ++ steps b := by
  simp [steps]

theorem steps_of_trials (clock : Nat → Int) (d : Int) :
    ∀ trials : List SweepEvent, (∀ e ∈ trials, isTrialOf clock d e) →
      steps trials = List.replicate trials.length (Step.trial d) := by
  intro trials
  induction trials with
  | nil => intro _; rfl
  | cons e l ih =>
    intro h
    obtain ⟨tick, factors, position, _, he⟩ := h e (List.mem_cons_self _ _)
    have hl := ih (fun e' he' => h e' (List.mem_cons_of_mem _ he'))
    rw [show e :: l = [e] ++ l from rfl, steps_append, hl, he]
    simp [steps, List.replicate_succ]

theorem trialLoop_spec (RAND_MAX : Int) (clock : Nat → Int) (newOk : World → Nat → Bool)
    (d : Int) (h0 : 0 ≤ d) (hd : d < 2147483647)
    (hnew : ∀ w : World, newOk w (d + 1).toNat = true) :
    ∀ (k : Nat) (w : World) (events : List SweepEvent), k ≤ 10 →
      ∃ w' trials, trialLoop RAND_MAX clock newOk d ((11 : Int) - (k : Int)) w events
          = some (w', events ++ trials) ∧
        trials.length = k ∧ (∀ e ∈ trials, isTrialOf clock d e) ∧ w'.input = w.input := by
  intro k
  induction k with
  | zero =>
    intro w events _
    refine ⟨w, [], ?_, rfl, by simp, rfl⟩
    rw [trialLoop, if_neg (by norm_num)]
    simp
  | succ k ih =>
    intro w events hk
    obtain ⟨w1, factors, position, h1, hin, hlen, _⟩ :=
      runTrial_trial RAND_MAX clock newOk d h0 hd w (hnew w)
    rw [trialLoop, if_pos (by push_cast; omega), h1]
    have hcycle : (11 : Int) - ((k + 1 : Nat) : Int) + 1 = (11 : Int) - (k : Int) := by
      push_cast
      ring
    simp only [hcycle]
    obtain ⟨w', trials, h2, h3, h4, h5⟩ := ih w1
      (events ++ [SweepEvent.trial factors position d
        (executeWithTimeMeasuring clock w.tick factors position d).1]) (by omega)
    refine ⟨w', SweepEvent.trial factors position d
      (executeWithTimeMeasuring clock w.tick factors position d).1 :: trials, ?_, ?_, ?_,
      h5.trans hin⟩
    · rw [h2]
      simp
    · simp [h3]
    · intro e he
      rcases List.mem_cons.mp he with rfl | he'
      · exact ⟨w.tick, factors, position, hlen, rfl⟩
      · exact h4 e he'

theorem sweepLoop_step (RAND_MAX : Int) (clock : Nat → Int) (newOk : World → Nat → Bool)
    (currentStep : Int) (d : Int) (h0 : 0 ≤ d) (hd : d < 2147483647)
    (hnew : ∀ w : World, newOk w (d + 1).toNat = true)
    (rest : List Int) (w : World) (events : List SweepEvent) (hstep : currentStep ≤ 4)
    (hin : w.input = d :: rest) :
    ∃ w' trials, sweepLoop RAND_MAX clock newOk currentStep w events
        = sweepLoop RAND_MAX clock newOk (currentStep + 1) w'
            (events ++ (requestOf d ++ trials)) ∧
      trials.length = 10 ∧ (∀ e ∈ trials, isTrialOf clock d e) ∧ w'.input = rest := by
  obtain ⟨w', trials, h1, h2, h3, h4⟩ := trialLoop_spec RAND_MAX clock newOk d h0 hd hnew 10
    (World.mk rest w.rng w.tick) (events ++ requestOf d) (le_refl 10)
  have hone : (11 : Int) - ((10 : Nat) : Int) = 1 := by norm_num
  rw [hone] at h1
  refine ⟨w', trials, ?_, h2, h3, h4⟩
  rw [sweepLoop, if_pos hstep]
  simp only [hin, cinRead]
  simp only [requestOf] at h1
  rw [h1]
  simp [requestOf]

theorem sweepLoop_spec (RAND_MAX : Int) (clock : Nat → Int) (newOk : World → Nat → Bool)
    (d1 d2 d3 d4 : Int)
    (h1 : 0 ≤ d1 ∧ d1 < 2147483647) (h2 : 0 ≤ d2 ∧ d2 < 2147483647)
    (h3 : 0 ≤ d3 ∧ d3 < 2147483647) (h4 : 0 ≤ d4 ∧ d4 < 2147483647)
    (hnew : ∀ (w : World) (d : Int), d ∈ [d1, d2, d3, d4] → newOk w (d + 1).toNat = true)
    (rest : List Int) (w : World) (hin : w.input = d1 :: d2 :: d3 :: d4 :: rest) :
    ∃ w' events, sweepLoop RAND_MAX clock newOk 1 w [] = some (w', events) ∧
      isSweepOf clock [d1, d2, d3, d4] events ∧ w'.input = rest := by
  obtain ⟨w1, t1, e1, l1, p1, i1⟩ := sweepLoop_step RAND_MAX clock newOk 1 d1 h1.1 h1.2
    (fun w => hnew w d1 (by simp)) _ w [] (by norm_num) hin
  obtain ⟨w2, t2, e2, l2, p2, i2⟩ := sweepLoop_step RAND_MAX clock newOk (1 + 1) d2 h2.1 h2.2
    (fun w => hnew w d2 (by simp)) _ w1 ([] ++ (requestOf d1 ++ t1)) (by norm_num) i1
  obtain ⟨w3, t3, e3, l3, p3, i3⟩ := sweepLoop_step RAND_MAX clock newOk (1 + 1 + 1) d3 h3.1
    h3.2 (fun w => hnew w d3 (by simp)) _ w2
    ([] ++ (requestOf d1 ++ t1) ++ (requestOf d2 ++ t2)) (by norm_num) i2
  obtain ⟨w4, t4, e4, l4, p4, i4⟩ := sweepLoop_step RAND_MAX clock newOk (1 + 1 + 1 + 1) d4
    h4.1 h4.2 (fun w => hnew w d4 (by simp)) _ w3
    ([] ++ (requestOf d1 ++ t1) ++ (requestOf d2 ++ t2) ++ (requestOf d3 ++ t3))
    (by norm_num) i3
  refine ⟨w4, [] ++ (requestOf d1 ++ t1) ++ (requestOf d2 ++ t2) ++ (requestOf d3 ++ t3)
    ++ (requestOf d4 ++ t4), ?_, ?_, i4⟩
  · rw [e1, e2, e3, e4, sweepLoop, if_neg (by norm_num)]
  · refine ⟨t1, requestOf d2 ++ t2 ++ (requestOf d3 ++ t3) ++ (requestOf d4 ++ t4), ?_, l1, p1,
      t2, requestOf d3 ++ t3 ++ (requestOf d4 ++ t4), ?_, l2, p2,
      t3, requestOf d4 ++ t4, ?_, l3, p3, t4, [], ?_, l4, p4, rfl⟩
    all_goals simp [List.append_assoc]

theorem isSweepOf_steps (clock : Nat → Int) :
    ∀ (ds : List Int) (events : List SweepEvent), isSweepOf clock ds events →
      steps events = sweepPlan ds := by
  intro ds
  induction ds with
  | nil =>
    intro events h
    rw [show events = [] from h]
    rfl
  | cons d ds ih =>
    intro events h
    obtain ⟨trials, rest, he, hl, hp, hr⟩ := h
    rw [he, steps_append, steps_append, ih rest hr, steps_of_trials clock d trials hp, hl]
    simp [steps, requestOf, sweepPlan]

theorem sweepPlan_counts (d1 d2 d3 d4 : Int) :
    trialCount (sweepPlan [d1, d2, d3, d4]) = 40 ∧
      requestCount (sweepPlan [d1, d2, d3, d4]) = 4 := by
  simp [sweepPlan, trialCount, requestCount, List.countP_cons, List.countP_append,
    List.replicate]

theorem sweepLoop_first_trial_fails (RAND_MAX : Int) (clock : Nat → Int)
    (newOk : World → Nat → Bool) (d : Int) (rest : List Int) (w : World)
    (hin : w.input = d :: rest)
    (hfail : runTrial RAND_MAX clock newOk d (World.mk rest w.rng w.tick) = none) :
    sweepLoop RAND_MAX clock newOk 1 w [] = none := by
  rw [sweepLoop, if_pos (by norm_num)]
  simp only [hin, cinRead]
  rw [trialLoop, if_pos (by norm_num), hfail]

/-- C11 fails as stated.  With the non-negative degrees 2147483647, 1, 1, 1
the sum `degree + 1` of the first trial leaves the range of `int` and `new`
throws, whatever storage there is; with the degrees 2147483646, 1, 1, 1 and
storage for at most 1000000000 coefficients `new` throws as well.  In both runs
the sweep ends without a result and does not reach 40 trials. -/
theorem sweep_aborts_at_int_max :
    ((0 : Int) ≤ 2147483647 ∧ (0 : Int) ≤ 1 ∧
      sweepLoop 2147483647 (fun n => n) (fun _ _ => true) 1
          (World.mk [2147483647, 1, 1, 1] (RandState.mk (fun n => n) 0) 0) []
        = none ∧
      ¬ ∃ w' events,
        sweepLoop 2147483647 (fun n => n) (fun _ _ => true) 1
            (World.mk [2147483647, 1, 1, 1] (RandState.mk (fun n => n) 0) 0) []
          = some (w', events) ∧ trialCount (steps events) = 40) ∧
      ((0 : Int) ≤ 2147483646 ∧
        sweepLoop 2147483647 (fun n => n) (fun _ n => decide (n ≤ 1000000000)) 1
            (World.mk [2147483646, 1, 1, 1] (RandState.mk (fun n => n) 0) 0) []
          = none) := by
  have h : sweepLoop 2147483647 (fun n => n) (fun _ _ => true) 1
      (World.mk [2147483647, 1, 1, 1] (RandState.mk (fun n => n) 0) 0) [] = none :=
    sweepLoop_first_trial_fails _ _ _ 2147483647 [1, 1, 1] _ rfl (runTrial_int_max _ _ _ _)
  refine ⟨⟨by decide, by decide, h, ?_⟩, by decide, ?_⟩
  · rintro ⟨w', events, he, _⟩
    rw [h] at he
    exact absurd he (by simp)
  · exact sweepLoop_first_trial_fails _ _ _ 2147483646 [1, 1, 1] _ rfl
      (runTrial_no_storage _ _ _ 2147483646 (by norm_num) (by norm_num) _ (by
        show decide (((2147483646 : Int) + 1).toNat ≤ 1000000000) = false
        simp))

/-- C11 (amended): for four degrees supplied by the operator, each
non-negative and below `INT_MAX = 2147483647`, and with storage for the
`degree + 1` coefficients of every trial, the sweep of `main` ends, and its
events are, for each degree in turn, the prompt, the read of that degree and
ten trials, each a call of the harness with that degree on `degree + 1`
coefficients; that is 4 requests and 40 trials, ending with the tenth trial of
the fourth degree, and exactly the four degrees are consumed from the input.
`main` runs this sweep when its self-test passes. -/
theorem sweep_four_by_ten (RAND_MAX : Int) (clock : Nat → Int) (newOk : World → Nat → Bool)
    (d1 d2 d3 d4 : Int)
    (rest : List Int) (h1 : 0 ≤ d1 ∧ d1 < 2147483647) (h2 : 0 ≤ d2 ∧ d2 < 2147483647)
    (h3 : 0 ≤ d3 ∧ d3 < 2147483647) (h4 : 0 ≤ d4 ∧ d4 < 2147483647)
    (hnew : ∀ (w : World) (d : Int), d ∈ [d1, d2, d3, d4] → newOk w (d + 1).toNat = true) :
    (∀ w : World, w.input = d1 :: d2 :: d3 :: d4 :: rest →
        ∃ w' events, sweepLoop RAND_MAX clock newOk 1 w [] = some (w', events) ∧
          isSweepOf clock [d1, d2, d3, d4] events ∧
          steps events = sweepPlan [d1, d2, d3, d4] ∧ w'.input = rest ∧
          trialCount (steps events) = 40 ∧ requestCount (steps events) = 4) ∧
      (∀ s s' : RandState, test RAND_MAX s = some s' →
        ∃ w' events,
          main RAND_MAX clock newOk (d1 :: d2 :: d3 :: d4 :: rest) s = some (w', events) ∧
          isSweepOf clock [d1, d2, d3, d4] events ∧
          steps events = sweepPlan [d1, d2, d3, d4] ∧ w'.input = rest ∧
          trialCount (steps events) = 40 ∧ requestCount (steps events) = 4) := by
  have key : ∀ w : World, w.input = d1 :: d2 :: d3 :: d4 :: rest →
      ∃ w' events, sweepLoop RAND_MAX clock newOk 1 w [] = some (w', events) ∧
        isSweepOf clock [d1, d2, d3, d4] events ∧
        steps events = sweepPlan [d1, d2, d3, d4] ∧ w'.input = rest ∧
        trialCount (steps events) = 40 ∧ requestCount (steps events) = 4 := by
    intro w hin
    obtain ⟨w', events, e, p, i⟩ :=
      sweepLoop_spec RAND_MAX clock newOk d1 d2 d3 d4 h1 h2 h3 h4 hnew rest w hin
    have s := isSweepOf_steps clock _ events p
    refine ⟨w', events, e, p, s, i, ?_, ?_⟩
    · rw [s]
      exact (sweepPlan_counts _ _ _ _).1
    · rw [s]
      exact (sweepPlan_counts _ _ _ _).2
  refine ⟨key, ?_⟩
  intro s s' hs
  rw [main, hs]
  exact key (World.mk _ s' 0) rfl

theorem sweep_four_by_ten_witness :
    ((0 : Int) ≤ 0 ∧ (0 : Int) < 2147483647) ∧ ((0 : Int) ≤ 1 ∧ (1 : Int) < 2147483647) ∧
      ((0 : Int) ≤ 2 ∧ (2 : Int) < 2147483647) ∧
      ((0 : Int) ≤ 100001 ∧ (100001 : Int) < 2147483647) ∧
      (∀ (w : World) (d : Int), d ∈ [(0 : Int), 1, 2, 100001] →
        (fun (_ : World) (n : Nat) => decide (n ≤ 1000000000)) w (d + 1).toNat = true) ∧
      ∃ w' events,
        sweepLoop 2147483647 (fun n => n) (fun _ n => decide (n ≤ 1000000000)) 1
            (World.mk [0, 1, 2, 100001] (RandState.mk (fun n => n) 0) 0) []
          = some (w', events) ∧
        isSweepOf (fun n => n) [0, 1, 2, 100001] events ∧
        steps events = sweepPlan [0, 1, 2, 100001] ∧ w'.input = [] ∧
        trialCount (steps events) = 40 ∧ requestCount (steps events) = 4 :=
  have hnew : ∀ (w : World) (d : Int), d ∈ [(0 : Int), 1, 2, 100001] →
      (fun (_ : World) (n : Nat) => decide (n ≤ 1000000000)) w (d + 1).toNat = true := by
    intro w d hd
    simp only [List.mem_cons, List.mem_singleton, List.not_mem_nil, or_false] at hd
    rcases hd with rfl | rfl | rfl | rfl <;> simp
  ⟨by decide, by decide, by decide, by decide, hnew,
    (sweep_four_by_ten 2147483647 (fun n => n) (fun _ n => decide (n ≤ 1000000000))
      0 1 2 100001 [] (by decide) (by decide) (by decide) (by decide) hnew).1
      (World.mk [0, 1, 2, 100001] (RandState.mk (fun n => n) 0) 0) rfl⟩

end AlgoTime
